/-
Verification of the oyster-api indexing service core.

This file gives a shallow embedding, in Lean 4, of the parts of the
SynFutures oyster-api source that the checked properties speak about:

* the ingestor's confirmation window (`packages/base-plugins/src/plugins/source.ts`),
* the partitioned event store (`packages/db/src/cache.ts`),
* the storage processor's reorg replay (`Storage` plugin),
* the snapshot replay (`getSnapshot` / `replay`),
* the snapshot API handler (`Handler.handleGenerateSnapshot`),
* the reorg detector's reconciliation (`Reorg.checkEvents` / `Reorg.commit`).

JavaScript numbers are modelled as `Nat` where the source only ever holds
block numbers / indexes / sizes, and as `Int` where the source can compute
negative intermediate values (e.g. `head - confirmation`, or the `previous`
accumulator that starts at `-1`).  Database queries are modelled over
in-memory lists; an SQL `ORDER BY blockNumber, transactionIndex, logIndex ASC`
is realized as an insertion sort by that key (with the store's unique
`(blockNumber, transactionIndex, logIndex)` index, the sorted result is
unique, so the choice of sorting algorithm is immaterial).
-/
import Mathlib

/-! ### Positions

`Position` is the ordered triple `(blockNumber, transactionIndex, logIndex)`,
total-ordered lexicographically (`compareLog` in
`packages/base-plugins/src/utils/utils.ts`). -/

structure Pos where
  bn : Nat
  ti : Nat
  li : Nat
deriving DecidableEq, Repr

def Pos.key (p : Pos) : ℕ ×ₗ (ℕ ×ₗ ℕ) := toLex (p.bn, toLex (p.ti, p.li))

instance : LinearOrder Pos :=
  LinearOrder.lift' Pos.key (by
    rintro ⟨a, b, c⟩ ⟨d, e, f⟩ h
    simp only [Pos.key] at h
    have h1 := toLex.injective h
    have h2 := Prod.ext_iff.mp h1
    have h3 := toLex.injective h2.2
    have h4 := Prod.ext_iff.mp h3
    simp only [Pos.mk.injEq]
    exact ⟨h2.1, h4.1, h4.2⟩)

/-! ### Ingestor (`Source` plugin, `packages/base-plugins/src/plugins/source.ts`)

Only the confirmation-window state machine is embedded: the queues
`confirmingLogs` and the downstream `logs` channel, the `latestBlockNumber`
mark, and the operations `addConfirmingLogs`, `addLogs`, `confirm`, and the
body of `processBlockNumbers` for a single received head.  Promise-carrying
`MixedLog`s (single-instrument re-fetch futures) are represented by the same
record as plain logs, since every operation below touches only the position
fields, the transaction hash and the `removed` flag. -/

structure SLog where
  blockNumber : Nat
  transactionHash : String
  transactionIndex : Nat
  logIndex : Nat
  removed : Bool
deriving DecidableEq, Repr

def SLog.pos (l : SLog) : Pos := ⟨l.blockNumber, l.transactionIndex, l.logIndex⟩

/-- `compareLog`-ordering on logs (blockNumber, transactionIndex, logIndex). -/

def sortLogs (l : List SLog) : List SLog :=
  List.insertionSort (fun a b => a.pos ≤ b.pos) l

inductive LogOrigin where
  | fetch
  | subscribe
deriving DecidableEq

structure SourceState where
  confirmingLogs : List SLog
  latestBlockNumber : Option Nat
  /-- the downstream `logs` channel: each push is one batch -/
  downstream : List (List SLog)
deriving DecidableEq, Repr

namespace Source

/-- `findIndex` + `splice(index, 1)`: remove the first log matching the
given position data, reporting whether one was found. -/
def removeFirstMatching (log : SLog) : List SLog → Option (List SLog)
  | [] => none
  | x :: xs =>
    if x.blockNumber = log.blockNumber ∧ x.transactionHash = log.transactionHash ∧
        x.transactionIndex = log.transactionIndex ∧ x.logIndex = log.logIndex then
      some xs
    else
      (removeFirstMatching log xs).map (x :: ·)

/-- `Source.addConfirmingLogs`: fetch-originated logs are appended wholesale;
subscribe-originated logs with `removed=true` de-queue a matching held log
(an unknown removal is warned and discarded), others are appended. -/
def addConfirmingLogs (origin : LogOrigin) (cl : List SLog) (logs : List SLog) : List SLog :=
  match origin with
  | .fetch => cl ++ logs
  | .subscribe =>
    logs.foldl
      (fun cl log =>
        if log.removed then
          match removeFirstMatching log cl with
          | some cl' => cl'
          | none => cl
        else cl ++ [log])
      cl

/-- `Source.addLogs` with the confirmation parameter `C`: with no
`latestBlockNumber` everything is held; otherwise logs with
`blockNumber > latestBlockNumber - C` are held in `confirmingLogs` and the
rest are pushed downstream as one batch. -/
def addLogs (C : Nat) (origin : LogOrigin) (st : SourceState) (logs : List SLog) : SourceState :=
  match st.latestBlockNumber with
  | none => { st with confirmingLogs := addConfirmingLogs origin st.confirmingLogs logs }
  | some latest =>
    let confirming := logs.filter (fun log => (log.blockNumber : Int) > (latest : Int) - (C : Int))
    let confirmed := logs.filter (fun log => ¬((log.blockNumber : Int) > (latest : Int) - (C : Int)))
    { st with
      confirmingLogs :=
        if confirming.length > 0 then addConfirmingLogs origin st.confirmingLogs confirming
        else st.confirmingLogs
      downstream :=
        if confirmed.length > 0 then st.downstream ++ [confirmed] else st.downstream }

/-- `Source.confirm`, embedded exactly as written: the held logs are sorted,
then the loop pushes a log to `confirmedLogs` when
`blockNumber > latestBlockNumber - C` — and also pushes it to
`confirmedLogs` in the `else` branch, so the freshly created
`confirmingLogs` array stays empty and replaces the held queue. -/
def confirm (C : Nat) (st : SourceState) : SourceState :=
  if st.confirmingLogs.length = 0 then st
  else
    let latest : Nat := st.latestBlockNumber.getD 0
    let split :=
      (sortLogs st.confirmingLogs).foldl
        (fun (acc : List SLog × List SLog) log =>
          if (log.blockNumber : Int) > (latest : Int) - (C : Int) then
            (acc.1, acc.2 ++ [log])
          else
            (acc.1, acc.2 ++ [log]))
        ([], [])
    { st with
      confirmingLogs := split.1
      downstream := if split.2.length > 0 then st.downstream ++ [split.2] else st.downstream }

/-- body of `Source.processBlockNumbers` for one head notification:
update `latestBlockNumber`, then `confirm()` (the `newBlock` hook carries no
state and is not modelled). -/
def processBlockNumber (C : Nat) (st : SourceState) (bn : Nat) : SourceState :=
  confirm C { st with latestBlockNumber := some bn }

end Source

/-- the four subscription logs of the confirmation-window scenario -/

def slog (bn : Nat) : SLog := ⟨bn, s!"tx{bn}", 0, 0, false⟩

/-! ### Snapshot API handler (`Handler.handleGenerateSnapshot`)

`params` arrives from a parsed JSON-RPC request and can be any JSON value,
so it is modelled by a small JavaScript value type.  The JS quirks the
handler's validation relies on are kept: `typeof null === 'object'`, reading
a property of `null` throws a `TypeError` (which `handle()` surfaces as a
`-32603` internal error, not `-32600`), a missing property reads as
`undefined`, and `typeof` of a primitive is not `'object'`. -/

inductive JsVal where
  | jsUndefined
  | null
  | num (n : Int)
  | str (s : String)
  | boolean (b : Bool)
  | obj (fields : List (String × JsVal))

/-- field read on an object: a missing property is `undefined`. -/

def jsField (params : JsVal) (k : String) : JsVal :=
  match params with
  | .obj fields => (fields.lookup k).getD .jsUndefined
  | _ => .jsUndefined

/-- the argument of `snapshotId`: `number | EventPosition`. -/

inductive SnapArg where
  | blockOnly (bn : Int)
  | triple (bn ti li : Int)
deriving DecidableEq, Repr

/-- `snapshotId(chainId, position)`:
`"{chainId}-{position}"` for a plain number and
`"{chainId}-{blockNumber}-{transactionIndex}-{logIndex}"` for a position. -/

def snapshotId (chainId : Nat) : SnapArg → String
  | .blockOnly bn => toString chainId ++ "-" ++ toString bn
  | .triple bn ti li =>
    toString chainId ++ "-" ++ toString bn ++ "-" ++ toString ti ++ "-" ++ toString li

/-- outcome of `handleGenerateSnapshot`. -/

inductive GenOutcome where
  /-- `throw new JSONRPCError(code, …)`: `-32600` invalid request, `102` still generating -/
  | rpcError (code : Int)
  /-- a raw JS `TypeError` escaping the handler (reading a property of `null`);
  `handle()` wraps it as internal error `-32603` -/
  | typeError
  /-- the handler returns this snapshot id (either found already generated, or
  after `getSnapshot` completes) -/
  | returns (id : String)
deriving DecidableEq, Repr

/-- `Handler.handleGenerateSnapshot`.  The source checks, in order:
`typeof params !== 'object'` (so every primitive, and `undefined`, is
rejected with `-32600`, while `null` and objects pass), then
`typeof params.blockNumber !== 'number'` (this read throws a `TypeError`
when `params` is `null`), the optional number-typing of
`transactionIndex`/`logIndex`, and that the latter two are either both
present or both absent; every failed check throws code `-32600`.  Then
`snapId = snapshotId(chainId, to)`; a pending generation for `snapId`
throws code `102`; an already-generated id, and a completed generation,
both return `snapId`. -/

def handleGenerateSnapshot (chainId : Nat) (generating : List String) (params : JsVal) :
    GenOutcome :=
  match params with
  | .null => .typeError
  | .obj fields =>
    match (fields.lookup "blockNumber").getD .jsUndefined,
        (fields.lookup "transactionIndex").getD .jsUndefined,
        (fields.lookup "logIndex").getD .jsUndefined with
    | .num bn, .num ti, .num li =>
      let snapId := snapshotId chainId (.triple bn ti li)
      if generating.contains snapId then .rpcError 102 else .returns snapId
    | .num bn, .jsUndefined, .jsUndefined =>
      let snapId := snapshotId chainId (.blockOnly bn)
      if generating.contains snapId then .rpcError 102 else .returns snapId
    | _, _, _ => .rpcError (-32600)
  | _ => .rpcError (-32600)

/-- the claim's validity condition on `params`: an object whose
`blockNumber` is a number and whose `transactionIndex`/`logIndex` are
either both numbers or both absent. -/

def validSnapshotParams : JsVal → Bool
  | .obj fields =>
    (match (fields.lookup "blockNumber").getD .jsUndefined with
     | .num _ => true
     | _ => false) &&
    (match (fields.lookup "transactionIndex").getD .jsUndefined,
        (fields.lookup "logIndex").getD .jsUndefined with
     | .num _, .num _ => true
     | .jsUndefined, .jsUndefined => true
     | _, _ => false)
  | _ => false

/-! ### Partitioned event store (`Events` in `packages/db/src/cache.ts`)

One `Events` instance manages a single chain, so the constant `chainId`
column is omitted from the embedded record (every stored row carries the
instance's chain id).  The `models` map of synced sequelize models is
represented by the list of sub-table indexes whose tables exist; `tables`
maps a sub-table index to the rows of `events_{chainId}_{k}`.  `timestamp`
and `status` are the extra columns written by the `Storage`/`Reorg`
plugins (`status` is modelled from the spec: a bitmask whose `PROCESSED`
bit is the constant below; the enum itself lives outside `src/`). -/

structure EventStructure where
  id : String
  name : String
  blockNumber : Nat
  blockHash : String
  txHash : String
  transactionIndex : Nat
  logIndex : Nat
  address : String
  /-- `serializeEventArgs(parsed.args)`, kept opaque -/
  data : String
  timestamp : Option Nat
  status : Nat
deriving DecidableEq, Repr

/-- Modelled from the spec: the `PROCESSED` bit of the `status` bitmask
(the `EventStatus` enum is imported from `@synfutures/db` but missing from
the sources). -/

def EventStatus.PROCESSED : Nat := 1

def EventStructure.pos (e : EventStructure) : Pos :=
  ⟨e.blockNumber, e.transactionIndex, e.logIndex⟩

/-- one `EventIndex` row (`id`/`chainId` columns omitted: rows are kept in
primary-key order in `EventsState.indexes`, and one instance is one chain). -/

structure EventIndex where
  index : Nat
  /-- `blockNumber_max` of sub-table `index` -/
  blockNumber : Nat
  size : Nat
deriving DecidableEq, Repr

structure EventsState where
  /-- the in-memory `this.indexes`, in load/creation order -/
  indexes : List EventIndex
  /-- indexes of the synced sub-table models (`this.models` keys) -/
  models : List Nat
  /-- rows of sub-table `events_{chainId}_{k}` -/
  tables : Nat → List EventStructure
  maxSizeForSingleTable : Nat

namespace Events

/-- the set of models synced by `init()`: one per loaded `EventIndex` row,
plus the runway loop `for (index = lastIndex; index <= 29; index++)`
(starting at `0` when no row exists). -/
def initModels (rows : List EventIndex) : List Nat :=
  rows.map (·.index) ++
    (List.range 30).filter (fun i => ((rows.getLast?.map (·.index)).getD 0) ≤ i)

/-- `Events.init()`: load the `EventIndex` rows (ordered by primary key)
and sync the models described by `initModels`. -/
def init (maxSizeForSingleTable : Nat) (rows : List EventIndex)
    (tables : Nat → List EventStructure) : EventsState :=
  { indexes := rows, models := initModels rows, tables, maxSizeForSingleTable }

/-- `get latestBlockNumber`: the last index row's `blockNumber`, `0` when empty. -/
def latestBlockNumber (st : EventsState) : Nat :=
  match st.indexes.getLast? with
  | some ix => ix.blockNumber
  | none => 0

/-- the `previous < blockNumber && blockNumber <= index.blockNumber` scan
shared by `create`, `findOne` and `destroyOne`; `previous` starts at `-1`.
Returns the position (in `indexes`) of the first hit. -/
def locateGo (bn : Nat) (prev : Int) : List EventIndex → Option Nat
  | [] => none
  | ix :: rest =>
    if prev < (bn : Int) ∧ bn ≤ ix.blockNumber then some 0
    else (locateGo bn (ix.blockNumber : Int) rest).map (· + 1)

def locate (st : EventsState) (bn : Nat) : Option Nat :=
  locateGo bn (-1) st.indexes

/-- update one sub-table. -/
def updTables (tables : Nat → List EventStructure) (k : Nat)
    (f : List EventStructure → List EventStructure) : Nat → List EventStructure :=
  fun n => if n = k then f (tables n) else tables n

/-- `Events.insert`: `getModel` first (throws `unknown model` → `none`,
with no mutation), then `blockNumber := max(old, e.blockNumber)`,
`size += 1`, save the index row and create the event row. -/
def insert (st : EventsState) (e : EventStructure) (i : Nat) : Option EventsState :=
  match st.indexes[i]? with
  | none => none
  | some ix =>
    if ix.index ∈ st.models then
      some { st with
        indexes :=
          st.indexes.set i
            { ix with
              blockNumber := max ix.blockNumber e.blockNumber
              size := ix.size + 1 }
        tables := updTables st.tables ix.index (· ++ [e]) }
    else none

inductive CreateResult where
  /-- successful insert -/
  | ok (st : EventsState)
  /-- `getModel` threw `unknown model`; `st` carries the mutations already
  applied before the throw (for the new-sub-table path, the new `EventIndex`
  row has been created and pushed to memory) -/
  | unknownModel (st : EventsState)

/-- tail of `Events.create`: allocate a new `EventIndex` with
`index = this.indexes.length`, `size = 1` and `blockNumber = e.blockNumber`,
push it to memory, then `getModel` (which throws when that sub-table was
never synced) and create the event row. -/
def createNew (st : EventsState) (e : EventStructure) : CreateResult :=
  let newIndex : EventIndex := ⟨st.indexes.length, e.blockNumber, 1⟩
  let st' := { st with indexes := st.indexes ++ [newIndex] }
  if newIndex.index ∈ st.models then
    .ok { st' with tables := updTables st'.tables newIndex.index (· ++ [e]) }
  else .unknownModel st'

/-- `Events.create`: scan for the first sub-table with
`previous < e.blockNumber ≤ blockNumber_max`; else the latest sub-table if
it has room; else a new sub-table. -/
def create (st : EventsState) (e : EventStructure) : CreateResult :=
  match locate st e.blockNumber with
  | some i =>
    match insert st e i with
    | some st' => .ok st'
    | none => .unknownModel st
  | none =>
    match st.indexes.getLast? with
    | some latestIndex =>
      if latestIndex.size < st.maxSizeForSingleTable then
        match insert st e (st.indexes.length - 1) with
        | some st' => .ok st'
        | none => .unknownModel st
      else createNew st e
    | none => createNew st e

/-- `Events.findOne`: probe the sub-tables whose block range may contain
`blockNumber` (every sub-table when no block number is given).  `getModel`
cannot throw here in a well-formed state (every listed index is synced),
so the throwing path is not modelled. -/
def findOneGo (tables : Nat → List EventStructure) (pred : EventStructure → Bool)
    (bn : Option Nat) (prev : Int) : List EventIndex → Option EventStructure
  | [] => none
  | ix :: rest =>
    let probe : Bool :=
      match bn with
      | none => true
      | some b => decide (prev < (b : Int) ∧ b ≤ ix.blockNumber)
    match if probe then (tables ix.index).find? pred else none with
    | some e => some e
    | none => findOneGo tables pred bn (ix.blockNumber : Int) rest

def findOne (st : EventsState) (pred : EventStructure → Bool) (bn : Option Nat) :
    Option EventStructure :=
  findOneGo st.tables pred bn (-1) st.indexes

/-- `Events.destroyOne`: locate the sub-table as in `findOne`, destroy every
row matching the condition there, decrement `size` by the count destroyed
(the recorded `blockNumber` is left untouched), and return the count.
Only the first sub-table in range is probed. -/
def destroyOne (st : EventsState) (pred : EventStructure → Bool) (bn : Nat) :
    EventsState × Nat :=
  match locate st bn with
  | none => (st, 0)
  | some i =>
    match st.indexes[i]? with
    | none => (st, 0)
    | some ix =>
      let destroyed := ((st.tables ix.index).filter pred).length
      if destroyed > 0 then
        ({ st with
            indexes := st.indexes.set i { ix with size := ix.size - destroyed }
            tables := updTables st.tables ix.index (·.filter (fun e => !(pred e))) },
          destroyed)
      else (st, destroyed)

/-- all events stored across the chain's tracked sub-tables, in sub-table order. -/
def storedEventsGo (tables : Nat → List EventStructure) : List EventIndex → List EventStructure
  | [] => []
  | ix :: rest => tables ix.index ++ storedEventsGo tables rest

def storedEvents (st : EventsState) : List EventStructure :=
  storedEventsGo st.tables st.indexes

def sumSizes (st : EventsState) : Nat :=
  (st.indexes.map (·.size)).sum

/-- total number of event rows over the sub-tables `0 .. n-1`. -/
def totalRows (st : EventsState) (n : Nat) : Nat :=
  ((List.range n).map (fun i => (st.tables i).length)).sum

/-- `blockNumber_max` non-decreasing along the index list. -/
def maxesSorted (st : EventsState) : Prop :=
  (st.indexes.map (·.blockNumber)).Pairwise (· ≤ ·)

end Events

/-! ### C3: `destroyOne` and the `blockNumber_max` bookkeeping -/

/-- a store freshly initialized with no `EventIndex` rows -/

def emptyStore : EventsState := Events.init 1000000 [] (fun _ => [])

/-- a minimal event at the given block -/

def mkEv (id : String) (bn : Nat) : EventStructure :=
  ⟨id, "Trade", bn, "bh", "th", 0, 0, "addr", "{}", none, 1⟩

def c3step1 : EventsState :=
  match Events.create emptyStore (mkEv "a" 5) with
  | .ok st => st
  | .unknownModel st => st

def c3step2 : EventsState :=
  match Events.create c3step1 (mkEv "b" 3) with
  | .ok st => st
  | .unknownModel st => st

def c3result : EventsState × Nat :=
  Events.destroyOne c3step2 (fun e => e.id = "a") 5

/-- a full 30-sub-table store that started empty (`maxSizeForSingleTable = 1`
to keep the witness small): sub-table `k` holds one event at block `k`. -/

def c10store : EventsState :=
  { indexes := (List.range 30).map (fun i => ⟨i, i, 1⟩)
    models := Events.initModels []
    tables := fun n => if n < 30 then [mkEv (toString n) n] else []
    maxSizeForSingleTable := 1 }

/-! ### Event store well-formedness

`WFGo` walks the in-memory index list exactly like the store's scans do,
threading `previous` (starting at `-1`) and the expected sub-table index:
each `EventIndex` row carries the next consecutive sub-table index, its
`size` matches its table's row count, the recorded maxima are
non-decreasing, and every stored row's block number lies in
`(previous, blockNumber_max]`. -/

def WFGo (tables : Nat → List EventStructure) : Int → Nat → List EventIndex → Prop
  | _, _, [] => True
  | prev, pos, ix :: rest =>
    ix.index = pos ∧
    ix.size = (tables ix.index).length ∧
    prev ≤ (ix.blockNumber : Int) ∧
    (∀ e ∈ tables ix.index, prev < (e.blockNumber : Int) ∧ e.blockNumber ≤ ix.blockNumber) ∧
    WFGo tables (ix.blockNumber : Int) (pos + 1) rest

/-- well-formedness of a store state: reachable states (e.g. anything built
from `init` on a fresh database by successful operations) satisfy it. -/

structure WF (st : EventsState) : Prop where
  go : WFGo st.tables (-1) 0 st.indexes
  modelsOK : ∀ ix ∈ st.indexes, ix.index ∈ st.models
  unusedEmpty : ∀ n, n ∉ st.indexes.map (·.index) → st.tables n = []

/-- per-sub-table accuracy: `size` counts the rows, and the recorded
`blockNumber_max` bounds every stored row's block number from above. -/

def sizesAccurate (st : EventsState) : Prop :=
  ∀ ix ∈ st.indexes,
    ix.size = (st.tables ix.index).length ∧
      ∀ e ∈ st.tables ix.index, e.blockNumber ≤ ix.blockNumber

/-! ### Ordered streaming reads (`findAll` / `findAllOrderByBTLASC`)

A SQL `ORDER BY blockNumber, transactionIndex, logIndex ASC` result is
realized as an insertion sort by position.  `chunkPages` reproduces the
pagination of `findAll` as driven by `findAllOrderByBTLASC`: pages of
`limit` rows; after every full page the consumer re-anchors the query at
`position > last yielded position` (that refined condition subsumes the
original lower bound, so it is applied to the same sorted view); a partial
page ends the sub-table.  The fuel argument bounds the number of pages and
cannot run out, since every re-anchored view drops at least the anchor
row. -/

instance : IsTotal EventStructure (fun a b => a.pos ≤ b.pos) :=
  ⟨fun a b => le_total _ _⟩

instance : IsTrans EventStructure (fun a b => a.pos ≤ b.pos) :=
  ⟨fun _ _ _ h1 h2 => le_trans h1 h2⟩

instance : DecidableRel (fun (a b : EventStructure) => a.pos ≤ b.pos) :=
  fun a b => inferInstanceAs (Decidable (a.pos ≤ b.pos))

def sortEvents (l : List EventStructure) : List EventStructure :=
  List.insertionSort (fun a b => a.pos ≤ b.pos) l

def chunkPagesGo (limit : Nat) : Nat → List EventStructure → List EventStructure
  | 0, _ => []
  | fuel + 1, l =>
    let page := l.take limit
    if 0 < limit ∧ page.length = limit then
      match page.getLast? with
      | some last =>
        page ++ chunkPagesGo limit fuel (l.filter (fun e => decide (last.pos < e.pos)))
      | none => page
    else page

def chunkPages (limit : Nat) (l : List EventStructure) : List EventStructure :=
  chunkPagesGo limit (l.length + 1) l

/-- the per-sub-table query view of `findAll` with an `ORDER BY` position:
matching rows, sorted. -/

def tableQuery (rows : List EventStructure) (cond : EventStructure → Bool) :
    List EventStructure :=
  sortEvents (rows.filter cond)

/-- `from` argument of `findAllOrderByBTLASC`: `number | EventPosition`. -/

inductive QueryFrom where
  | num (n : Nat)
  | pos (p : Pos)
deriving DecidableEq, Repr

/-- `to` argument of `findAllOrderByBTLASC`: `number | EventPosition`
(`Option` for `undefined`). -/

inductive QueryTo where
  | num (n : Nat)
  | pos (p : Pos)
deriving DecidableEq, Repr

def QueryFrom.blockNumber : QueryFrom → Nat
  | .num n => n
  | .pos p => p.bn

/-- the `fromCondition` where-object: strict lower bound, left open. -/

def fromCond : QueryFrom → EventStructure → Bool
  | .num n, e => decide (n < e.blockNumber)
  | .pos p, e =>
    decide (p.bn < e.blockNumber) ||
      (decide (e.blockNumber = p.bn) && decide (p.ti < e.transactionIndex)) ||
      (decide (e.blockNumber = p.bn) && decide (e.transactionIndex = p.ti) &&
        decide (p.li < e.logIndex))

/-- the `toCondition` where-object: inclusive upper bound; `none`
(`to === undefined`) imposes no condition. -/

def toCond : Option QueryTo → EventStructure → Bool
  | none, _ => true
  | some (.num n), e => decide (e.blockNumber ≤ n)
  | some (.pos p), e =>
    decide (e.blockNumber < p.bn) ||
      (decide (e.blockNumber = p.bn) && decide (e.transactionIndex < p.ti)) ||
      (decide (e.blockNumber = p.bn) && decide (e.transactionIndex = p.ti) &&
        decide (e.logIndex ≤ p.li))

/-- `toBlockNumber`: explicit bound, or `this.latestBlockNumber` when `to`
is `undefined`. -/

def toBlockNumberOf (st : EventsState) : Option QueryTo → Nat
  | none => Events.latestBlockNumber st
  | some (.num n) => n
  | some (.pos p) => p.bn

/-- the sub-table selection walk of `findAll`
(`(from ≤ max ∧ max ≤ to) ∨ (previous < to ∧ to ≤ max)`, `previous`
starting at `-1`), concatenating each selected sub-table's paginated
query. -/

def findAllGo (tables : Nat → List EventStructure) (cond : EventStructure → Bool)
    (fromBN toBN limit : Nat) : Int → List EventIndex → List EventStructure
  | _, [] => []
  | prev, ix :: rest =>
    (if (fromBN ≤ ix.blockNumber ∧ ix.blockNumber ≤ toBN) ∨
        (prev < (toBN : Int) ∧ toBN ≤ ix.blockNumber) then
      chunkPages limit (tableQuery (tables ix.index) cond)
    else []) ++ findAllGo tables cond fromBN toBN limit (ix.blockNumber : Int) rest

/-- `Events.findAllOrderByBTLASC` as the full stream it yields (`none`
models the `invalid block number` throw). -/

def findAllOrderByBTLASC (st : EventsState) (qfrom : QueryFrom) (qto : Option QueryTo)
    (limit : Nat) : Option (List EventStructure) :=
  let fromBN := qfrom.blockNumber
  let toBN := toBlockNumberOf st qto
  if fromBN > toBN then none
  else
    some (findAllGo st.tables (fun e => fromCond qfrom e && toCond qto e) fromBN toBN limit
      (-1) st.indexes)

instance : IsAntisymm EventStructure (fun a b => a.pos < b.pos) :=
  ⟨fun a b h1 h2 => absurd (lt_trans h1 h2) (lt_irrefl _)⟩

/-! ### Storage processor reorg (`Storage.reorg` / `Storage.processLogs`)

`fromDBEvent` (utils.ts) rebuilds an ethers `Log` from a stored row — but
it copies only `blockNumber`, `blockHash`, `transactionIndex`, `address`
and `logIndex`; the `transactionHash` property is never set, so it reads
back as `undefined`.  `processLogs` starts every log with
`calcEventId(chainId, address, blockHash, log.transactionHash, logIndex)`,
and `calcId` applies `formatHexString` to every non-number argument;
`formatHexString(undefined)` calls `undefined.startsWith`, a `TypeError`.
The sha256 itself is an opaque parameter `hash`. -/

/-- the object literal built by `fromDBEvent` (its only fields). -/

structure RawLog where
  blockNumber : Nat
  blockHash : String
  transactionIndex : Nat
  address : String
  logIndex : Nat
  /-- never assigned by `fromDBEvent`: reads as `undefined` -/
  transactionHash : Option String
deriving DecidableEq, Repr

def fromDBEventLog (e : EventStructure) : RawLog :=
  { blockNumber := e.blockNumber
    blockHash := "0x" ++ e.blockHash
    transactionIndex := e.transactionIndex
    address := "0x" ++ e.address
    logIndex := e.logIndex
    transactionHash := none }

/-- `{name, args}` of a parsed log (`deserializeEventArgs` kept opaque:
`args` is the serialized form). -/

structure ParsedL where
  name : String
  args : String
deriving DecidableEq, Repr

def fromDBEventParsed (e : EventStructure) : ParsedL := ⟨e.name, e.data⟩

def formatHexStr (s : String) : String :=
  if s.startsWith "0x" then (s.drop 2).toLower else s.toLower

/-- `calcEventId` through `calcId`: `none` models the `TypeError` thrown by
`formatHexString(undefined)`. -/

def calcEventIdM (hash : List String → String) (chainId : Nat) (address blockHash : String)
    (txHash : Option String) (logIndex : Nat) : Option String :=
  match txHash with
  | none => none
  | some th =>
    some (hash [toString chainId, formatHexStr address, formatHexStr blockHash,
      formatHexStr th, toString logIndex])

/-- the `newParsedEvent` emissions of one `processLogs(logs, parsedLogs)`
batch during reorg reprocessing.  Each log is identified first; the
`TypeError` aborts the batch's transaction (`processLogs` returns `false`,
which `Storage.reorg` ignores), so a failing log ends the batch with the
emissions made before it.  With pre-parsed arguments supplied and
`reprocessing = true` no log is otherwise skipped, so a surviving log is
always emitted. -/

def processLogsReorgEmits (hash : List String → String) (chainId : Nat) :
    List EventStructure → List (EventStructure × ParsedL)
  | [] => []
  | e :: rest =>
    let log := fromDBEventLog e
    match calcEventIdM hash chainId log.address log.blockHash log.transactionHash
        log.logIndex with
    | none => []
    | some _ => (e, fromDBEventParsed e) :: processLogsReorgEmits hash chainId rest

/-- `Storage.reorg(reorgBlockNumber)`: stream
`findAllOrderByBTLASC(reorgBlockNumber - 1)` and feed every batch through
`processLogs` with the stored pre-parsed arguments.  The generator's page
boundaries are immaterial here: every page aborts at its first log, so
processing the concatenated stream yields the same emissions. -/

def reorgEmits (hash : List String → String) (chainId : Nat) (st : EventsState)
    (reorgBlockNumber : Nat) : Option (List (EventStructure × ParsedL)) :=
  match findAllOrderByBTLASC st (.num (reorgBlockNumber - 1)) none 1000 with
  | none => none
  | some stream => some (processLogsReorgEmits hash chainId stream)

def constHash : List String → String := fun _ => "deadbeef"

/-! ### Snapshot replay (`replay` / `getSnapshot`)

The application state is an opaque type `S` with the deterministic mutator
`snapshot.processParsedLog(log, parsed)`, modelled as `apply : S → EventStructure → S`
acting on the stored event (the `fromDBEvent` projection is injective on
the fields `apply` may read).  Serialization is the identity on `S`
(`deserialize ∘ serialize = id` is the engine's contract), so equality of
serialized snapshots is equality in `S`.  The abort signal and the
progress bar are not modelled; `replay`'s returned latest position is
dropped. -/

def zeroPos : Pos := ⟨0, 0, 0⟩

/-- one `replay(events, snapshot, from, to)` run: fold the streamed batches
through the state mutator (`none` models the stream's throw). -/

def replay {S : Type} (apply : S → EventStructure → S) (st : EventsState) (snap : S)
    (fromPos : Pos) (qto : Option QueryTo) : Option S :=
  match findAllOrderByBTLASC st (.pos fromPos) qto 1000 with
  | none => none
  | some stream => some (stream.foldl apply snap)

/-- the `SnapshotTable.findOne` where-object: snapshot position `≤ to`. -/

def snapLeCond : QueryTo → Pos → Bool
  | .num n, p => decide (p.bn ≤ n)
  | .pos q, p =>
    decide (p.bn < q.bn) ||
      (decide (p.bn = q.bn) && decide (p.ti < q.ti)) ||
      (decide (p.bn = q.bn) && decide (p.ti = q.ti) && decide (p.li ≤ q.li))

/-- `SnapshotTable.findOne(… ORDER BY position DESC)`: the stored snapshot
with the greatest position `≤ to` (positions are unique by the table's
constraint, so ties cannot arise). -/

def nearestSnapshot {S : Type} (snaps : List (Pos × S)) (qto : QueryTo) : Option (Pos × S) :=
  (snaps.filter (fun r => snapLeCond qto r.1)).foldl
    (fun acc r =>
      match acc with
      | none => some r
      | some best => if best.1 < r.1 then some r else some best)
    none

/-- `getSnapshot(sdk, events, to, from?, …)`: replay from the given base,
or from the nearest stored snapshot `≤ to`, or from a fresh snapshot at
position `(0,0,0)`. -/

def getSnapshot {S : Type} (apply : S → EventStructure → S) (s0 : S)
    (snaps : List (Pos × S)) (st : EventsState) (qto : QueryTo)
    (fromBase : Option (S × Pos)) : Option S :=
  match fromBase with
  | some (snap, p) => replay apply st snap p (some qto)
  | none =>
    match nearestSnapshot snaps qto with
    | some (p, snap) => replay apply st snap p (some qto)
    | none => replay apply st s0 zeroPos (some qto)

/-- the canonical fold input: all stored events with
`(0,0,0) < Position ≤ q`, in position order. -/

def eventsUpTo (st : EventsState) (q : QueryTo) : List EventStructure :=
  sortEvents ((Events.storedEvents st).filter
    (fun e => fromCond (.pos zeroPos) e && toCond (some q) e))

/-- `b ≤ q` for a base position against a replay target. -/

def posLeTo (b : Pos) : QueryTo → Prop
  | .num n => b.bn ≤ n
  | .pos p => b ≤ p

/-! ### Reorg detector (`Reorg.checkEvents` / `Reorg.commit`)

Fetched logs carry every field (unlike `fromDBEvent`'s reconstruction).
Parsing against the three ABI interfaces is one opaque partial function;
`BlockCache.getBlock(n).timestamp` is an opaque partial timestamp lookup
(`none` = the `get block failed` skip).  The `existed` map keyed by event
id is an association list with JavaScript `Map` set/delete semantics. -/

structure FLog where
  blockNumber : Nat
  blockHash : String
  transactionHash : String
  transactionIndex : Nat
  logIndex : Nat
  address : String
deriving DecidableEq, Repr

def FLog.pos (l : FLog) : Pos := ⟨l.blockNumber, l.transactionIndex, l.logIndex⟩

instance : IsTotal FLog (fun a b => a.pos ≤ b.pos) := ⟨fun a b => le_total _ _⟩

instance : IsTrans FLog (fun a b => a.pos ≤ b.pos) := ⟨fun _ _ _ h1 h2 => le_trans h1 h2⟩

instance : DecidableRel (fun (a b : FLog) => a.pos ≤ b.pos) :=
  fun a b => inferInstanceAs (Decidable (a.pos ≤ b.pos))

/-- `logs.sort(compareLog)` on fetched logs. -/

def sortFLogs (l : List FLog) : List FLog :=
  List.insertionSort (fun a b => a.pos ≤ b.pos) l

/-- `findAll` without `order`/`limit` (one query per selected sub-table,
rows in stored order). -/

def findAllGoPlain (tables : Nat → List EventStructure) (cond : EventStructure → Bool)
    (fromBN toBN : Nat) : Int → List EventIndex → List EventStructure
  | _, [] => []
  | prev, ix :: rest =>
    (if (fromBN ≤ ix.blockNumber ∧ ix.blockNumber ≤ toBN) ∨
        (prev < (toBN : Int) ∧ toBN ≤ ix.blockNumber) then
      (tables ix.index).filter cond
    else []) ++ findAllGoPlain tables cond fromBN toBN (ix.blockNumber : Int) rest

structure CheckState where
  /-- the `existed` map, keyed by `id` -/
  existed : List EventStructure
  needSave : List EventStructure
  reorgedBlockNumber : Option Nat
deriving Repr

/-- JS `Map.set(id, event)`. -/

def mapSet (m : List EventStructure) (e : EventStructure) : List EventStructure :=
  if m.any (fun x => x.id = e.id) then m.map (fun x => if x.id = e.id then e else x)
  else m ++ [e]

/-- JS `Map.delete(id)`: `none` when absent. -/

def mapDelete (idv : String) : List EventStructure → Option (List EventStructure)
  | [] => none
  | x :: xs => if x.id = idv then some xs else (mapDelete idv xs).map (x :: ·)

/-- the row pushed onto `needSave` for a supplemented log. -/

def mkSupplement (idv : String) (parsed : ParsedL) (ts : Nat) (log : FLog) :
    EventStructure :=
  { id := idv
    name := parsed.name
    blockNumber := log.blockNumber
    blockHash := formatHexStr log.blockHash
    txHash := formatHexStr log.transactionHash
    transactionIndex := log.transactionIndex
    logIndex := log.logIndex
    address := formatHexStr log.address
    data := parsed.args
    timestamp := some ts
    status := 0 }

/-- the id computed for a fetched log (every field present, so `calcEventId`
cannot throw here and `getD` never falls back). -/

def supplementId (hash : List String → String) (chainId : Nat) (log : FLog) : String :=
  (calcEventIdM hash chainId log.address log.blockHash (some log.transactionHash)
    log.logIndex).getD ""

/-- the body of `checkEvents`' fetched-log loop for one log. -/

def processFetched (hash : List String → String) (chainId : Nat)
    (parse : FLog → Option ParsedL) (timestampOf : Nat → Option Nat)
    (cs : CheckState) (log : FLog) : CheckState :=
  match mapDelete (supplementId hash chainId log) cs.existed with
  | some m => { cs with existed := m }
  | none =>
    match parse log with
    | none => cs
    | some parsed =>
      match timestampOf log.blockNumber with
      | none => cs
      | some ts =>
        { existed := cs.existed
          needSave := cs.needSave ++ [mkSupplement (supplementId hash chainId log) parsed ts log]
          reorgedBlockNumber :=
            some (match cs.reorgedBlockNumber with
              | none => log.blockNumber
              | some r => min r log.blockNumber) }

/-- the batched sliding window of `checkEvents`
(`_to = min(from + 1000, to)`, `from = _to`, break when `from === to`); the
fuel bounds the number of batches and never runs out. -/

def checkEventsGo (hash : List String → String) (chainId : Nat)
    (parse : FLog → Option ParsedL) (timestampOf : Nat → Option Nat)
    (st : EventsState) (fetch : Nat → Nat → List FLog) :
    Nat → Nat → Nat → CheckState → CheckState
  | 0, _, _, cs => cs
  | fuel + 1, start, stop, cs =>
    if start ≤ stop then
      let mid := min (start + 1000) stop
      let queried := findAllGoPlain st.tables
        (fun e => decide (start ≤ e.blockNumber) && decide (e.blockNumber ≤ mid))
        start mid (-1) st.indexes
      let cs1 := { cs with existed := queried.foldl mapSet cs.existed }
      let cs2 := (sortFLogs (fetch start mid)).foldl
        (processFetched hash chainId parse timestampOf) cs1
      if mid = stop then cs2
      else checkEventsGo hash chainId parse timestampOf st fetch fuel mid stop cs2
    else cs

/-- `Reorg.checkEvents(from, to)`: returns
`{ needSave, needDestroy: [], reorgedBlockNumber }` — the commented-out
destroy pass makes `needDestroy` the empty list unconditionally. -/

def checkEvents (hash : List String → String) (chainId : Nat)
    (parse : FLog → Option ParsedL) (timestampOf : Nat → Option Nat)
    (st : EventsState) (fetch : Nat → Nat → List FLog) (start stop : Nat) :
    CheckState × List EventStructure :=
  (checkEventsGo hash chainId parse timestampOf st fetch (stop + 1) start stop ⟨[], [], none⟩,
    [])

/-- `event.destroy()` (only ever called on the dead `needDestroy` list):
removes the row, without touching the `EventIndex` bookkeeping. -/

def removeRowL (e : EventStructure) : List EventStructure → List EventStructure
  | [] => []
  | x :: xs => if x = e then xs else x :: removeRowL e xs

def destroyRow (st : EventsState) (e : EventStructure) : EventsState :=
  { st with tables := fun n => removeRowL e (st.tables n) }

/-- `Reorg.commit(needSave, needDestroy)`: one transaction destroying
`needDestroy` and creating `needSave`; any error rolls the transaction
back (`none`: the store is left as it was). -/

def commitStep (acc : Option EventsState) (e : EventStructure) : Option EventsState :=
  match acc with
  | none => none
  | some s =>
    match Events.create s e with
    | .ok s' => some s'
    | .unknownModel _ => none

def commitEvents (st : EventsState) (needSave needDestroy : List EventStructure) :
    Option EventsState :=
  needSave.foldl commitStep (some (needDestroy.foldl destroyRow st))

/-- a `needSave` row is the supplement of a fetched, parseable log whose
block timestamp could be looked up. -/

def SupplementOf (hash : List String → String) (chainId : Nat)
    (parse : FLog → Option ParsedL) (timestampOf : Nat → Option Nat)
    (fetch : Nat → Nat → List FLog) (e : EventStructure) : Prop :=
  ∃ a b log parsed ts, log ∈ fetch a b ∧ parse log = some parsed ∧
    timestampOf log.blockNumber = some ts ∧
    e = mkSupplement (supplementId hash chainId log) parsed ts log

/-- the running invariant of `checkEvents`: `reorgedBlockNumber` is the
minimum `blockNumber` over `needSave` (absent exactly when nothing was
supplemented), and every `needSave` row is a supplemented fetched log. -/

def CheckInv (hash : List String → String) (chainId : Nat)
    (parse : FLog → Option ParsedL) (timestampOf : Nat → Option Nat)
    (fetch : Nat → Nat → List FLog) (cs : CheckState) : Prop :=
  (cs.reorgedBlockNumber = none ↔ cs.needSave = []) ∧
  (∀ m, cs.reorgedBlockNumber = some m →
    m ∈ cs.needSave.map (·.blockNumber) ∧ ∀ e ∈ cs.needSave, m ≤ e.blockNumber) ∧
  (∀ e ∈ cs.needSave, SupplementOf hash chainId parse timestampOf fetch e)

/-! ### Theorems -/

theorem Pos.lt_def {p q : Pos} :
    p < q ↔ p.bn < q.bn ∨ (p.bn = q.bn ∧ (p.ti < q.ti ∨ (p.ti = q.ti ∧ p.li < q.li))) := by
  show key p < key q ↔ _
  cases p; cases q
  simp only [key, Prod.Lex.lt_iff]

theorem Pos.le_def {p q : Pos} : p ≤ q ↔ p < q ∨ p = q := by
  constructor
  · intro h
    rcases lt_or_eq_of_le h with h' | h'
    · exact Or.inl h'
    · exact Or.inr h'
  · rintro (h | rfl)
    · exact le_of_lt h
    · exact le_refl _

theorem Pos.bn_le_of_le {p q : Pos} (h : p ≤ q) : p.bn ≤ q.bn := by
  rcases le_def.mp h with h' | rfl
  · rcases lt_def.mp h' with h'' | ⟨h'', _⟩
    · exact Nat.le_of_lt h''
    · exact Nat.le_of_eq h''
  · exact Nat.le_refl _

theorem Pos.lt_of_bn_lt {p q : Pos} (h : p.bn < q.bn) : p < q := lt_def.mpr (Or.inl h)

/-- **C1.** With `C=2`, injecting subscription logs at blocks 100–103 while
`head=103` puts blocks 102 and 103 into `confirmingLogs` and emits
`{100,101}` downstream — but the subsequent head update to 104 releases
BOTH held logs (102 and 103) downstream and retains nothing, because both
branches of the loop in `confirm()` push onto `confirmedLogs`.  The claim
(and the spec's intended split) would release only the block-102 log and
retain 103. -/

theorem confirm_releases_all_held_logs :
    (let st0 : SourceState := ⟨[], some 103, []⟩
     let st1 := Source.addLogs 2 .subscribe st0 [slog 100, slog 101, slog 102, slog 103]
     let st2 := Source.processBlockNumber 2 st1 104
     st1.downstream = [[slog 100, slog 101]] ∧
       st1.confirmingLogs = [slog 102, slog 103] ∧
       st2.downstream = [[slog 100, slog 101], [slog 102, slog 103]] ∧
       st2.confirmingLogs = []) := by
  decide

/-- **C8 (counterexample).** For `params = null` the handler does NOT throw
the claimed `-32600`: `typeof null === 'object'` passes the first check and
reading `null.blockNumber` throws a `TypeError`, surfaced by `handle()` as
internal error `-32603`. -/

theorem generateSnapshot_null_no_invalid_request :
    handleGenerateSnapshot 81457 [] .null = .typeError ∧
      GenOutcome.typeError ≠ .rpcError (-32600) := by
  decide

/-- **C8 (amended).** For every non-`null` `params`: the handler throws the
JSON-RPC error `-32600` exactly when `params` is invalid (blockNumber not a
number, or exactly one of `transactionIndex`/`logIndex` supplied as a
number, or a non-number supplied); on valid params it returns the id
`"{chainId}-{blockNumber}"` (block-only form) or
`"{chainId}-{blockNumber}-{transactionIndex}-{logIndex}"` (triple form),
unless that id is still generating (code `102`). -/

theorem generateSnapshot_spec (chainId : Nat) (generating : List String) (params : JsVal)
    (hnull : params ≠ .null) :
    (validSnapshotParams params = false →
      handleGenerateSnapshot chainId generating params = .rpcError (-32600)) ∧
    (∀ bn ti li : Int,
      jsField params "blockNumber" = .num bn →
      jsField params "transactionIndex" = .num ti →
      jsField params "logIndex" = .num li →
      handleGenerateSnapshot chainId generating params =
        (if generating.contains (snapshotId chainId (.triple bn ti li)) then .rpcError 102
         else .returns (snapshotId chainId (.triple bn ti li)))) ∧
    (∀ bn : Int,
      jsField params "blockNumber" = .num bn →
      jsField params "transactionIndex" = .jsUndefined →
      jsField params "logIndex" = .jsUndefined →
      handleGenerateSnapshot chainId generating params =
        (if generating.contains (snapshotId chainId (.blockOnly bn)) then .rpcError 102
         else .returns (snapshotId chainId (.blockOnly bn)))) := by
  refine ⟨?_, ?_, ?_⟩
  · intro hv
    match params with
    | .null => exact absurd rfl hnull
    | .jsUndefined | .num _ | .str _ | .boolean _ => rfl
    | .obj fields =>
      simp only [validSnapshotParams, Bool.and_eq_false_iff] at hv
      simp only [handleGenerateSnapshot]
      rcases h1 : (fields.lookup "blockNumber").getD .jsUndefined with _ | _ | bn | s | b | fs <;>
        rcases h2 : (fields.lookup "transactionIndex").getD .jsUndefined with _ | _ | ti | s2 | b2 | fs2 <;>
          rcases h3 : (fields.lookup "logIndex").getD .jsUndefined with _ | _ | li | s3 | b3 | fs3 <;>
            simp_all
  · intro bn ti li h1 h2 h3
    match params with
    | .null => exact absurd rfl hnull
    | .jsUndefined | .num _ | .str _ | .boolean _ => simp [jsField] at h1
    | .obj fields =>
      simp only [jsField] at h1 h2 h3
      simp only [handleGenerateSnapshot, h1, h2, h3]
  · intro bn h1 h2 h3
    match params with
    | .null => exact absurd rfl hnull
    | .jsUndefined | .num _ | .str _ | .boolean _ => simp [jsField] at h1
    | .obj fields =>
      simp only [jsField] at h1 h2 h3
      simp only [handleGenerateSnapshot, h1, h2, h3]

/-- **C8 (witness).** The spec's literal example: `generateSnapshot` with
`{blockNumber: 2737538, transactionIndex: 10, logIndex: 23}` on
`chainId = 81457` returns `"81457-2737538-10-23"`. -/

theorem generateSnapshot_spec_witness :
    handleGenerateSnapshot 81457 []
        (.obj [("blockNumber", .num 2737538), ("transactionIndex", .num 10),
          ("logIndex", .num 23)]) =
      .returns "81457-2737538-10-23" := by
  have h := (generateSnapshot_spec 81457 []
    (.obj [("blockNumber", .num 2737538), ("transactionIndex", .num 10),
      ("logIndex", .num 23)]) (fun h => JsVal.noConfusion h)).2.1 2737538 10 23 rfl rfl rfl
  simpa using h

/-- **C2 (counterexample).** A store whose only `EventIndex` row has
sub-table index `0` (so `last = 0`): the claim requires
`events_{chainId}_0 .. events_{chainId}_30` to exist after `init()`, but
the runway loop stops at `index <= 29`, so table `30` is never synced. -/

theorem init_no_runway_past_29 :
    30 ∉ (Events.init 1000000 [⟨0, 100, 1⟩] (fun _ => [])).models := by
  decide

/-- **C2 (amended).** `init()` ensures exactly the sub-tables of the loaded
`EventIndex` rows plus the runway `last .. 29` (from `0` when no row
exists): table `k` exists after `init` iff `k` is a loaded row's index, or
`last ≤ k < 30`.  With contiguous rows `0..last ≤ 29`, that is the fixed
runway `0..29` — 30 tables in total, not `last + 30`. -/

theorem init_models_characterization (maxSize : Nat) (rows : List EventIndex)
    (tables : Nat → List EventStructure) (k : Nat) :
    k ∈ (Events.init maxSize rows tables).models ↔
      (k ∈ rows.map (·.index) ∨
        (((rows.getLast?.map (·.index)).getD 0) ≤ k ∧ k < 30)) := by
  simp only [Events.init, Events.initModels, List.mem_append, List.mem_filter,
    List.mem_range, decide_eq_true_eq]
  tauto

/-- **C3 (counterexample).** Create events at blocks 5 and 3 (both land in
sub-table 0, whose recorded `blockNumber_max` becomes 5), then
`destroyOne` the block-5 row: the row count and `size` drop to 1, but the
recorded `blockNumber_max` stays 5 while the maximum `blockNumber` of the
events actually remaining in sub-table 0 is 3 — the claimed equality fails
after a deletion of the sub-table's maximum row. -/

theorem destroyOne_stale_blockNumber_max :
    Events.create emptyStore (mkEv "a" 5) = .ok c3step1 ∧
      Events.create c3step1 (mkEv "b" 3) = .ok c3step2 ∧
      c3result.2 = 1 ∧
      c3result.1.indexes = [⟨0, 5, 1⟩] ∧
      c3result.1.tables 0 = [mkEv "b" 3] ∧
      ((c3result.1.tables 0).map (·.blockNumber)).max? = some 3 ∧
      (5 : Nat) ≠ 3 := by
  refine ⟨rfl, rfl, rfl, rfl, rfl, rfl, by decide⟩

/-! ### C10: `create` throws `unknown model` past the synced runway -/

theorem locateGo_eq_none (bn : Nat) (prev : Int) (l : List EventIndex)
    (h : ∀ ix ∈ l, ix.blockNumber < bn) :
    Events.locateGo bn prev l = none := by
  induction l generalizing prev with
  | nil => rfl
  | cons ix rest ih =>
    have hix := h ix (by simp)
    simp only [Events.locateGo]
    rw [if_neg (by rintro ⟨-, hle⟩; omega), ih _ (fun a ha => h a (by simp [ha]))]
    rfl

theorem locateGo_first_hit (bn : Nat) (prev : Int) (l : List EventIndex)
    (hprev : prev < (bn : Int)) (i : Nat) (ix : EventIndex)
    (hi : l[i]? = some ix) (hbn : bn ≤ ix.blockNumber)
    (hbefore : ∀ j < i, ∀ jx, l[j]? = some jx → jx.blockNumber < bn) :
    Events.locateGo bn prev l = some i := by
  induction l generalizing prev i with
  | nil => simp at hi
  | cons x rest ih =>
    cases i with
    | zero =>
      simp only [List.getElem?_cons_zero, Option.some.injEq] at hi
      subst hi
      simp only [Events.locateGo]
      rw [if_pos (show prev < (bn : Int) ∧ bn ≤ x.blockNumber from ⟨hprev, hbn⟩)]
    | succ i =>
      have hx : x.blockNumber < bn := hbefore 0 (Nat.succ_pos _) x (by simp)
      simp only [List.getElem?_cons_succ] at hi
      simp only [Events.locateGo]
      rw [if_neg (by rintro ⟨-, hle⟩; omega)]
      rw [ih (x.blockNumber : Int) (by exact_mod_cast hx) i hi
        (fun j hj jx hjx => hbefore (j + 1) (Nat.succ_lt_succ hj) jx (by simpa using hjx))]
      rfl

/-- **C10.** Whenever `create` must allocate a new sub-table (every
existing `blockNumber_max` is below the event's block and the tail
sub-table is full) whose index exceeds both `29` and every sub-table index
that existed when `init()` ran, `getModel` throws `unknown model` — after
the new `EventIndex` row has already been created and pushed onto the
in-memory list.  Only init-time indexes and the runway `… ≤ 29` are ever
synced into the model map, so under default settings a store that started
empty cannot allocate sub-table 30. -/

theorem create_unknown_model_past_runway
    (st : EventsState) (rows : List EventIndex) (e : EventStructure)
    (hm : st.models = Events.initModels rows)
    (hAll : ∀ ix ∈ st.indexes, ix.blockNumber < e.blockNumber)
    (hFull : ∀ ix, st.indexes.getLast? = some ix → st.maxSizeForSingleTable ≤ ix.size)
    (h29 : 29 < st.indexes.length)
    (hInit : ∀ ix ∈ rows, ix.index < st.indexes.length) :
    Events.create st e =
      .unknownModel
        { st with indexes := st.indexes ++ [⟨st.indexes.length, e.blockNumber, 1⟩] } := by
  have hloc : Events.locate st e.blockNumber = none :=
    locateGo_eq_none _ _ _ hAll
  have hnotmem : st.indexes.length ∉ st.models := by
    rw [hm]
    simp only [Events.initModels, List.mem_append, List.mem_filter, List.mem_range,
      List.mem_map, decide_eq_true_eq]
    rintro (⟨ix, hmem, hix⟩ | ⟨hlt, -⟩)
    · exact absurd hix (Nat.ne_of_lt (hInit ix hmem))
    · omega
  have hcn : Events.createNew st e =
      .unknownModel
        { st with indexes := st.indexes ++ [⟨st.indexes.length, e.blockNumber, 1⟩] } := by
    simp only [Events.createNew, if_neg hnotmem]
  simp only [Events.create, hloc]
  cases hlast : st.indexes.getLast? with
  | none => exact hcn
  | some last =>
    have hsz : ¬ last.size < st.maxSizeForSingleTable := by
      have := hFull last hlast
      omega
    simp only [hsz, if_false]
    exact hcn

/-- **C10 (witness).** Creating one more event on the full 30-sub-table
store throws `unknown model` after appending `EventIndex` row 30. -/

theorem create_unknown_model_past_runway_witness :
    Events.create c10store (mkEv "x" 100) =
      .unknownModel
        { c10store with
          indexes := c10store.indexes ++ [⟨c10store.indexes.length, 100, 1⟩] } :=
  create_unknown_model_past_runway c10store [] (mkEv "x" 100) rfl (by decide)
    (by intro ix h; cases h; decide) (by decide) (by simp)

theorem wfGo_index (tables : Nat → List EventStructure) :
    ∀ (l : List EventIndex) (prev : Int) (pos : Nat), WFGo tables prev pos l →
      ∀ j ix, l[j]? = some ix → ix.index = pos + j := by
  intro l
  induction l with
  | nil => intro prev pos _ j ix h; simp at h
  | cons x rest ih =>
    intro prev pos hwf j ix h
    cases j with
    | zero =>
      simp only [List.getElem?_cons_zero, Option.some.injEq] at h
      subst h
      simpa using hwf.1
    | succ j =>
      simp only [List.getElem?_cons_succ] at h
      have := ih _ _ hwf.2.2.2.2 j ix h
      omega

theorem wfGo_mem_index (tables : Nat → List EventStructure) (l : List EventIndex)
    (prev : Int) (pos : Nat) (hwf : WFGo tables prev pos l) :
    ∀ ix ∈ l, pos ≤ ix.index := by
  intro ix hmem
  obtain ⟨j, hj, rfl⟩ := List.getElem_of_mem hmem
  have := wfGo_index tables l prev pos hwf j _ (List.getElem?_eq_getElem hj)
  omega

theorem wfGo_map_index (tables : Nat → List EventStructure) :
    ∀ (l : List EventIndex) (prev : Int) (pos : Nat), WFGo tables prev pos l →
      l.map (·.index) = List.range' pos l.length := by
  intro l
  induction l with
  | nil => intro _ _ _; rfl
  | cons x rest ih =>
    intro prev pos hwf
    simp only [List.map_cons, List.length_cons, List.range'_succ, hwf.1]
    rw [ih _ _ hwf.2.2.2.2]

theorem wfGo_congr (t t' : Nat → List EventStructure) :
    ∀ (l : List EventIndex) (prev : Int) (pos : Nat),
      (∀ ix ∈ l, t' ix.index = t ix.index) → WFGo t prev pos l → WFGo t' prev pos l := by
  intro l
  induction l with
  | nil => intro _ _ _ _; trivial
  | cons x rest ih =>
    intro prev pos hagree hwf
    refine ⟨hwf.1, ?_, hwf.2.2.1, ?_, ?_⟩
    · rw [hagree x (by simp)]; exact hwf.2.1
    · rw [hagree x (by simp)]; exact hwf.2.2.2.1
    · exact ih _ _ (fun ix h => hagree ix (by simp [h])) hwf.2.2.2.2

theorem wfGo_maxes (tables : Nat → List EventStructure) :
    ∀ (l : List EventIndex) (prev : Int) (pos : Nat), WFGo tables prev pos l →
      (∀ ix ∈ l, prev ≤ (ix.blockNumber : Int)) ∧
        (l.map (·.blockNumber)).Pairwise (· ≤ ·) := by
  intro l
  induction l with
  | nil => intro _ _ _; exact ⟨by simp, by simp⟩
  | cons x rest ih =>
    intro prev pos hwf
    obtain ⟨hall, hpair⟩ := ih _ _ hwf.2.2.2.2
    refine ⟨?_, ?_⟩
    · intro ix hmem
      rcases List.mem_cons.mp hmem with rfl | hmem
      · exact hwf.2.2.1
      · exact le_trans hwf.2.2.1 (hall ix hmem)
    · simp only [List.map_cons, List.pairwise_cons]
      refine ⟨?_, hpair⟩
      intro b hb
      obtain ⟨ix, hmem, rfl⟩ := List.mem_map.mp hb
      exact_mod_cast hall ix hmem

theorem locateGo_none_spec (bn : Nat) :
    ∀ (l : List EventIndex) (prev : Int), prev < (bn : Int) →
      Events.locateGo bn prev l = none → ∀ ix ∈ l, ix.blockNumber < bn := by
  intro l
  induction l with
  | nil => intro _ _ _ ix h; simp at h
  | cons x rest ih =>
    intro prev hprev h ix hmem
    simp only [Events.locateGo] at h
    by_cases hc : prev < (bn : Int) ∧ bn ≤ x.blockNumber
    · rw [if_pos hc] at h; exact absurd h (by simp)
    · rw [if_neg hc] at h
      have hx : x.blockNumber < bn := by
        rcases Nat.lt_or_ge x.blockNumber bn with h' | h'
        · exact h'
        · exact absurd ⟨hprev, h'⟩ hc
      rcases List.mem_cons.mp hmem with rfl | hmem
      · exact hx
      · exact ih (x.blockNumber : Int) (by exact_mod_cast hx)
          (by simpa using h) ix hmem

theorem updTables_ne (tables : Nat → List EventStructure) (k : Nat)
    (f : List EventStructure → List EventStructure) (n : Nat) (h : n ≠ k) :
    Events.updTables tables k f n = tables n := if_neg h

theorem updTables_self (tables : Nat → List EventStructure) (k : Nat)
    (f : List EventStructure → List EventStructure) :
    Events.updTables tables k f k = f (tables k) := if_pos rfl

theorem mem_of_mem_set {α : Type} : ∀ (l : List α) (i : Nat) (v a : α),
    a ∈ l.set i v → a = v ∨ a ∈ l := by
  intro l
  induction l with
  | nil => intro i v a h; simp at h
  | cons x rest ih =>
    intro i v a h
    cases i with
    | zero =>
      rcases List.mem_cons.mp h with rfl | h
      · exact Or.inl rfl
      · exact Or.inr (List.mem_cons_of_mem _ h)
    | succ i =>
      rcases List.mem_cons.mp h with rfl | h
      · exact Or.inr (List.mem_cons_self _ _)
      · rcases ih i v a h with h' | h'
        · exact Or.inl h'
        · exact Or.inr (List.mem_cons_of_mem _ h')

theorem length_filter_not {α : Type} (p : α → Bool) (l : List α) :
    (l.filter (fun a => !(p a))).length = l.length - (l.filter p).length := by
  induction l with
  | nil => rfl
  | cons x rest ih =>
    have hle : (rest.filter p).length ≤ rest.length := List.length_filter_le _ _
    by_cases h : p x = true
    case pos =>
      simp [List.filter_cons, h, ih]
    case neg =>
      simp [List.filter_cons, h, ih]
      omega

theorem locateGo_some_mem (bn : Nat) :
    ∀ (l : List EventIndex) (prev : Int) (i : Nat),
      Events.locateGo bn prev l = some i → ∃ ix, l[i]? = some ix := by
  intro l
  induction l with
  | nil => intro prev i h; simp [Events.locateGo] at h
  | cons x rest ih =>
    intro prev i h
    simp only [Events.locateGo] at h
    by_cases hc : prev < (bn : Int) ∧ bn ≤ x.blockNumber
    · rw [if_pos hc] at h
      cases h
      exact ⟨x, by simp⟩
    · rw [if_neg hc] at h
      obtain ⟨i', hi', rfl⟩ := Option.map_eq_some'.mp h
      obtain ⟨ix, hix⟩ := ih _ _ hi'
      exact ⟨ix, by simpa using hix⟩

/-- inserting a located event (case 1 of `create`: the first sub-table with
`previous < blockNumber ≤ blockNumber_max`) preserves well-formedness of the
walk; the recorded maximum does not move. -/

theorem wfGo_insert_located (e : EventStructure) (tables : Nat → List EventStructure) :
    ∀ (l : List EventIndex) (prev : Int) (pos : Nat) (i : Nat) (ix : EventIndex),
      WFGo tables prev pos l →
      Events.locateGo e.blockNumber prev l = some i →
      l[i]? = some ix →
      WFGo (Events.updTables tables ix.index (· ++ [e])) prev pos
        (l.set i
          { ix with blockNumber := max ix.blockNumber e.blockNumber, size := ix.size + 1 }) := by
  intro l
  induction l with
  | nil => intro prev pos i ix _ hloc _; simp [Events.locateGo] at hloc
  | cons x rest ih =>
    intro prev pos i ix hwf hloc hix
    simp only [Events.locateGo] at hloc
    by_cases hc : prev < (e.blockNumber : Int) ∧ e.blockNumber ≤ x.blockNumber
    · rw [if_pos hc] at hloc
      cases hloc
      simp only [List.getElem?_cons_zero, Option.some.injEq] at hix
      subst hix
      have hmax : max x.blockNumber e.blockNumber = x.blockNumber :=
        Nat.max_eq_left hc.2
      simp only [List.set_cons_zero, hmax]
      have hx0 : x.index = pos := hwf.1
      refine ⟨hwf.1, ?_, hwf.2.2.1, ?_, ?_⟩
      · simp only [updTables_self, List.length_append, List.length_singleton]
        simpa using hwf.2.1
      · simp only [updTables_self]
        intro ev hev
        rcases List.mem_append.mp hev with hev | hev
        · exact hwf.2.2.2.1 ev hev
        · rcases List.mem_singleton.mp hev with rfl
          exact ⟨hc.1, hc.2⟩
      · refine wfGo_congr _ _ _ _ _ ?_ hwf.2.2.2.2
        intro jx hjx
        refine updTables_ne _ _ _ _ ?_
        have h1 := wfGo_mem_index _ _ _ _ hwf.2.2.2.2 jx hjx
        omega
    · rw [if_neg hc] at hloc
      obtain ⟨i', hi', rfl⟩ := Option.map_eq_some'.mp hloc
      simp only [List.getElem?_cons_succ] at hix
      have hmem : ix ∈ rest := List.getElem?_mem hix
      have hixge : pos + 1 ≤ ix.index := wfGo_mem_index _ _ _ _ hwf.2.2.2.2 ix hmem
      have hx0 : x.index = pos := hwf.1
      simp only [List.set_cons_succ]
      refine ⟨hwf.1, ?_, hwf.2.2.1, ?_, ?_⟩
      · rw [updTables_ne _ _ _ _ (by omega)]
        exact hwf.2.1
      · rw [updTables_ne _ _ _ _ (by omega)]
        exact hwf.2.2.2.1
      · exact ih _ _ _ _ hwf.2.2.2.2 hi' hix

/-- inserting into the tail sub-table (case 2 of `create`: no sub-table's
range contains the block, but the tail has room) preserves the walk; the
tail's recorded maximum moves up to the event's block number. -/

theorem wfGo_insert_last (e : EventStructure) (tables : Nat → List EventStructure) :
    ∀ (l : List EventIndex) (prev : Int) (pos : Nat) (ix : EventIndex),
      WFGo tables prev pos l →
      (∀ jx ∈ l, jx.blockNumber < e.blockNumber) →
      prev < (e.blockNumber : Int) →
      l[l.length - 1]? = some ix →
      WFGo (Events.updTables tables ix.index (· ++ [e])) prev pos
        (l.set (l.length - 1)
          { ix with blockNumber := max ix.blockNumber e.blockNumber, size := ix.size + 1 }) := by
  intro l
  induction l with
  | nil => intro prev pos ix _ _ _ hix; simp at hix
  | cons x rest ih =>
    intro prev pos ix hwf hlt hprev hix
    cases rest with
    | nil =>
      simp only [List.length_singleton, Nat.sub_self, List.getElem?_cons_zero,
        Option.some.injEq] at hix
      subst hix
      have hmax : max x.blockNumber e.blockNumber = e.blockNumber :=
        Nat.max_eq_right (Nat.le_of_lt (hlt x (by simp)))
      simp only [List.length_singleton, Nat.sub_self, List.set_cons_zero, hmax]
      refine ⟨hwf.1, ?_, ?_, ?_, trivial⟩
      · simp only [updTables_self, List.length_append, List.length_singleton]
        simpa using hwf.2.1
      · exact le_of_lt hprev
      · simp only [updTables_self]
        intro ev hev
        rcases List.mem_append.mp hev with hev | hev
        · have h1 := hwf.2.2.2.1 ev hev
          exact ⟨h1.1, le_trans h1.2 (Nat.le_of_lt (hlt x (by simp)))⟩
        · rcases List.mem_singleton.mp hev with rfl
          exact ⟨hprev, Nat.le_refl _⟩
    | cons y rest' =>
      have hlen : (x :: y :: rest').length - 1 = (y :: rest').length - 1 + 1 := by
        simp [List.length_cons]
      rw [hlen] at hix ⊢
      simp only [List.getElem?_cons_succ] at hix
      have hmem : ix ∈ y :: rest' := List.getElem?_mem hix
      have hixge : pos + 1 ≤ ix.index := wfGo_mem_index _ _ _ _ hwf.2.2.2.2 ix hmem
      have hx0 : x.index = pos := hwf.1
      simp only [List.set_cons_succ]
      refine ⟨hwf.1, ?_, hwf.2.2.1, ?_, ?_⟩
      · rw [updTables_ne _ _ _ _ (by omega)]
        exact hwf.2.1
      · rw [updTables_ne _ _ _ _ (by omega)]
        exact hwf.2.2.2.1
      · exact ih _ _ _ hwf.2.2.2.2 (fun jx hjx => hlt jx (by simp [hjx]))
          (by exact_mod_cast hlt x (by simp)) hix

/-- appending a fresh `EventIndex` row at the end of the walk. -/

theorem wfGo_snoc (tables : Nat → List EventStructure) :
    ∀ (l : List EventIndex) (prev : Int) (pos : Nat) (nix : EventIndex),
      WFGo tables prev pos l →
      nix.index = pos + l.length →
      nix.size = (tables nix.index).length →
      (∀ ev ∈ tables nix.index,
        prev < (ev.blockNumber : Int) ∧ (∀ jx ∈ l, jx.blockNumber < ev.blockNumber) ∧
          ev.blockNumber ≤ nix.blockNumber) →
      prev ≤ (nix.blockNumber : Int) →
      (∀ jx ∈ l, jx.blockNumber ≤ nix.blockNumber) →
      WFGo tables prev pos (l ++ [nix]) := by
  intro l
  induction l with
  | nil =>
    intro prev pos nix _ hidx hsize hev hle _
    refine ⟨by simpa using hidx, hsize, hle, ?_, trivial⟩
    intro ev hmem
    exact ⟨(hev ev hmem).1, (hev ev hmem).2.2⟩
  | cons x rest ih =>
    intro prev pos nix hwf hidx hsize hev hle hle2
    refine ⟨hwf.1, hwf.2.1, hwf.2.2.1, hwf.2.2.2.1, ?_⟩
    refine ih _ _ _ hwf.2.2.2.2 (by simp at hidx ⊢; omega) hsize ?_
      (by exact_mod_cast hle2 x (by simp)) (fun jx hjx => hle2 jx (by simp [hjx]))
    intro ev hmem
    obtain ⟨h1, h2, h3⟩ := hev ev hmem
    exact ⟨by exact_mod_cast h2 x (by simp), fun jx hjx => h2 jx (by simp [hjx]), h3⟩

/-- `destroyOne` on the located sub-table preserves the walk: rows are
removed, `size` is decremented by the count removed, and the recorded
maximum is left untouched (it stays an upper bound). -/

theorem wfGo_destroy (pred : EventStructure → Bool) (bn : Nat)
    (tables : Nat → List EventStructure) :
    ∀ (l : List EventIndex) (prev : Int) (pos : Nat) (i : Nat) (ix : EventIndex),
      WFGo tables prev pos l →
      Events.locateGo bn prev l = some i →
      l[i]? = some ix →
      WFGo (Events.updTables tables ix.index (·.filter (fun e => !(pred e)))) prev pos
        (l.set i { ix with size := ix.size - ((tables ix.index).filter pred).length }) := by
  intro l
  induction l with
  | nil => intro prev pos i ix _ hloc _; simp [Events.locateGo] at hloc
  | cons x rest ih =>
    intro prev pos i ix hwf hloc hix
    simp only [Events.locateGo] at hloc
    by_cases hc : prev < (bn : Int) ∧ bn ≤ x.blockNumber
    · rw [if_pos hc] at hloc
      cases hloc
      simp only [List.getElem?_cons_zero, Option.some.injEq] at hix
      subst hix
      simp only [List.set_cons_zero]
      refine ⟨hwf.1, ?_, hwf.2.2.1, ?_, ?_⟩
      · simp only [updTables_self, length_filter_not, hwf.2.1]
      · simp only [updTables_self]
        intro ev hev
        exact hwf.2.2.2.1 ev (List.mem_of_mem_filter hev)
      · refine wfGo_congr _ _ _ _ _ ?_ hwf.2.2.2.2
        intro jx hjx
        refine updTables_ne _ _ _ _ ?_
        have h1 := wfGo_mem_index _ _ _ _ hwf.2.2.2.2 jx hjx
        have hx0 : x.index = pos := hwf.1
        omega
    · rw [if_neg hc] at hloc
      obtain ⟨i', hi', rfl⟩ := Option.map_eq_some'.mp hloc
      simp only [List.getElem?_cons_succ] at hix
      have hmem : ix ∈ rest := List.getElem?_mem hix
      have hixge : pos + 1 ≤ ix.index := wfGo_mem_index _ _ _ _ hwf.2.2.2.2 ix hmem
      have hx0 : x.index = pos := hwf.1
      simp only [List.set_cons_succ]
      refine ⟨hwf.1, ?_, hwf.2.2.1, ?_, ?_⟩
      · rw [updTables_ne _ _ _ _ (by omega)]
        exact hwf.2.1
      · rw [updTables_ne _ _ _ _ (by omega)]
        exact hwf.2.2.2.1
      · exact ih _ _ _ _ hwf.2.2.2.2 hi' hix

theorem map_set_eq {α β : Type} (f : α → β) :
    ∀ (l : List α) (i : Nat) (v : α), (∀ w, l[i]? = some w → f w = f v) →
      (l.set i v).map f = l.map f := by
  intro l
  induction l with
  | nil => intro i v _; rfl
  | cons x rest ih =>
    intro i v hw
    cases i with
    | zero => simp [List.set_cons_zero, ← hw x (by simp)]
    | succ i =>
      simp only [List.set_cons_succ, List.map_cons]
      rw [ih i v (fun w hw' => hw w (by simpa using hw'))]

theorem create_locate_some (st : EventsState) (e : EventStructure) (i : Nat)
    (h : Events.locate st e.blockNumber = some i) :
    Events.create st e =
      (match Events.insert st e i with
       | some st' => .ok st'
       | none => .unknownModel st) := by
  unfold Events.create
  rw [h]

theorem insert_spec (st : EventsState) (e : EventStructure) (i : Nat) (ix : EventIndex)
    (hix : st.indexes[i]? = some ix) (hmem : ix.index ∈ st.models) :
    Events.insert st e i =
      some
        { st with
          indexes :=
            st.indexes.set i
              { ix with blockNumber := max ix.blockNumber e.blockNumber, size := ix.size + 1 }
          tables := Events.updTables st.tables ix.index (· ++ [e]) } := by
  unfold Events.insert
  rw [hix]
  exact if_pos hmem

theorem createNew_mem (st : EventsState) (e : EventStructure)
    (hmem : st.indexes.length ∈ st.models) :
    Events.createNew st e =
      .ok
        { st with
          indexes := st.indexes ++ [⟨st.indexes.length, e.blockNumber, 1⟩]
          tables := Events.updTables st.tables st.indexes.length (· ++ [e]) } := by
  unfold Events.createNew
  rw [if_pos hmem]

/-- successful `create` preserves well-formedness. -/

theorem wf_create_ok (st : EventsState) (e : EventStructure) (st' : EventsState)
    (hwf : WF st) (h : Events.create st e = .ok st') : WF st' := by
  cases hloc : Events.locate st e.blockNumber with
  | some i =>
    obtain ⟨ix, hix⟩ := locateGo_some_mem _ _ _ _ hloc
    have hmem : ix.index ∈ st.models := hwf.modelsOK ix (List.getElem?_mem hix)
    rw [create_locate_some st e i hloc, insert_spec st e i ix hix hmem] at h
    simp only [] at h
    cases h
    refine ⟨?_, ?_, ?_⟩
    · exact wfGo_insert_located e st.tables st.indexes (-1) 0 i ix hwf.go hloc hix
    · intro jx hjx
      rcases mem_of_mem_set _ _ _ _ hjx with rfl | hjx'
      · exact hmem
      · exact hwf.modelsOK _ hjx'
    · intro n hn
      rw [map_set_eq _ _ _ _ (fun w hw => by rw [hw] at hix; cases hix; rfl)] at hn
      have hne : n ≠ ix.index := by
        intro hcontra
        exact hn (hcontra ▸ List.mem_map_of_mem _ (List.getElem?_mem hix))
      show Events.updTables st.tables ix.index (· ++ [e]) n = []
      rw [updTables_ne _ _ _ _ hne]
      exact hwf.unusedEmpty n hn
  | none =>
    have hlt : ∀ jx ∈ st.indexes, jx.blockNumber < e.blockNumber :=
      locateGo_none_spec _ _ _ (by omega) hloc
    have hmap : st.indexes.map (·.index) = List.range' 0 st.indexes.length :=
      wfGo_map_index _ _ _ _ hwf.go
    have hlenout : st.indexes.length ∉ st.indexes.map (·.index) := by
      rw [hmap]
      intro hcontra
      have := List.mem_range'_1.mp hcontra
      omega
    have hempty : st.tables st.indexes.length = [] :=
      hwf.unusedEmpty _ hlenout
    have hwfnew : Events.createNew st e = .ok st' → WF st' := by
      intro hcn
      have hmem : st.indexes.length ∈ st.models := by
        by_contra hmem
        unfold Events.createNew at hcn
        simp only [if_neg hmem] at hcn
        exact Events.CreateResult.noConfusion hcn
      rw [createNew_mem st e hmem] at hcn
      cases hcn
      refine ⟨?_, ?_, ?_⟩
      · refine wfGo_snoc _ _ _ _ _ ?_ (by simp) ?_ ?_ (by omega) ?_
        · refine wfGo_congr _ _ _ _ _ ?_ hwf.go
          intro jx hjx
          show Events.updTables st.tables st.indexes.length (· ++ [e]) jx.index =
            st.tables jx.index
          refine updTables_ne _ _ _ _ ?_
          intro hcontra
          exact hlenout (hcontra ▸ List.mem_map_of_mem _ hjx)
        · simp [updTables_self, hempty]
        · simp only [updTables_self, hempty, List.nil_append]
          intro ev hev
          rcases List.mem_singleton.mp hev with rfl
          exact ⟨by omega, fun jx hjx => hlt jx hjx, Nat.le_refl _⟩
        · exact fun jx hjx => Nat.le_of_lt (hlt jx hjx)
      · intro jx hjx
        rcases List.mem_append.mp hjx with hjx | hjx
        · exact hwf.modelsOK _ hjx
        · rcases List.mem_singleton.mp hjx with rfl
          exact hmem
      · intro n hn
        simp only [List.map_append, List.map_cons, List.map_nil] at hn
        have hn1 : n ∉ st.indexes.map (·.index) := fun hc => hn (List.mem_append.mpr (Or.inl hc))
        have hn2 : n ≠ st.indexes.length := fun hc =>
          hn (List.mem_append.mpr (Or.inr (by simp [hc])))
        show Events.updTables st.tables st.indexes.length (· ++ [e]) n = []
        rw [updTables_ne _ _ _ _ hn2]
        exact hwf.unusedEmpty n hn1
    cases hlast : st.indexes.getLast? with
    | some last =>
      by_cases hsz : last.size < st.maxSizeForSingleTable
      · have hix : st.indexes[st.indexes.length - 1]? = some last := by
          rw [← List.getLast?_eq_getElem?]
          exact hlast
        have hmem : last.index ∈ st.models := hwf.modelsOK last (List.getElem?_mem hix)
        unfold Events.create at h
        rw [hloc, hlast] at h
        simp only [if_pos hsz] at h
        rw [insert_spec st e _ last hix hmem] at h
        simp only [] at h
        cases h
        refine ⟨?_, ?_, ?_⟩
        · exact wfGo_insert_last e st.tables st.indexes (-1) 0 last hwf.go hlt (by omega) hix
        · intro jx hjx
          rcases mem_of_mem_set _ _ _ _ hjx with rfl | hjx'
          · exact hmem
          · exact hwf.modelsOK _ hjx'
        · intro n hn
          rw [map_set_eq _ _ _ _ (fun w hw => by rw [hw] at hix; cases hix; rfl)] at hn
          have hne : n ≠ last.index := by
            intro hcontra
            exact hn (hcontra ▸ List.mem_map_of_mem _ (List.getElem?_mem hix))
          show Events.updTables st.tables last.index (· ++ [e]) n = []
          rw [updTables_ne _ _ _ _ hne]
          exact hwf.unusedEmpty n hn
      · refine hwfnew ?_
        unfold Events.create at h
        rw [hloc, hlast] at h
        simp only [if_neg hsz] at h
        exact h
    | none =>
      refine hwfnew ?_
      unfold Events.create at h
      rw [hloc, hlast] at h
      exact h

/-- `destroyOne` preserves well-formedness. -/

theorem wf_destroyOne (st : EventsState) (pred : EventStructure → Bool) (bn : Nat)
    (st' : EventsState) (k : Nat) (hwf : WF st)
    (h : Events.destroyOne st pred bn = (st', k)) : WF st' := by
  unfold Events.destroyOne at h
  cases hloc : Events.locate st bn with
  | none =>
    rw [hloc] at h
    cases h
    exact hwf
  | some i =>
    obtain ⟨ix, hix⟩ := locateGo_some_mem _ _ _ _ hloc
    rw [hloc] at h
    simp only [] at h
    rw [hix] at h
    simp only [] at h
    by_cases hd : 0 < ((st.tables ix.index).filter pred).length
    · rw [if_pos hd] at h
      cases h
      refine ⟨?_, ?_, ?_⟩
      · exact wfGo_destroy pred bn st.tables st.indexes (-1) 0 i ix hwf.go hloc hix
      · intro jx hjx
        rcases mem_of_mem_set _ _ _ _ hjx with rfl | hjx'
        · exact hwf.modelsOK ix (List.getElem?_mem hix)
        · exact hwf.modelsOK _ hjx'
      · intro n hn
        rw [map_set_eq _ _ _ _ (fun w hw => by rw [hw] at hix; cases hix; rfl)] at hn
        have hne : n ≠ ix.index := by
          intro hcontra
          exact hn (hcontra ▸ List.mem_map_of_mem _ (List.getElem?_mem hix))
        show Events.updTables st.tables ix.index (·.filter (fun e => !(pred e))) n = []
        rw [updTables_ne _ _ _ _ hne]
        exact hwf.unusedEmpty n hn
    · rw [if_neg hd] at h
      cases h
      exact hwf

theorem wfGo_sizes (tables : Nat → List EventStructure) :
    ∀ (l : List EventIndex) (prev : Int) (pos : Nat), WFGo tables prev pos l →
      ∀ ix ∈ l, ix.size = (tables ix.index).length ∧
        ∀ e ∈ tables ix.index, e.blockNumber ≤ ix.blockNumber := by
  intro l
  induction l with
  | nil => intro _ _ _ ix h; simp at h
  | cons x rest ih =>
    intro prev pos hwf ix hmem
    rcases List.mem_cons.mp hmem with rfl | hmem
    · exact ⟨hwf.2.1, fun e he => (hwf.2.2.2.1 e he).2⟩
    · exact ih _ _ hwf.2.2.2.2 ix hmem

theorem wf_sizesAccurate (st : EventsState) (hwf : WF st) : sizesAccurate st :=
  wfGo_sizes st.tables st.indexes (-1) 0 hwf.go

theorem wf_maxesSorted (st : EventsState) (hwf : WF st) : Events.maxesSorted st :=
  (wfGo_maxes st.tables st.indexes (-1) 0 hwf.go).2

theorem wf_sum_total (st : EventsState) (hwf : WF st) (n : Nat)
    (hn : st.indexes.length ≤ n) : Events.sumSizes st = Events.totalRows st n := by
  have hsz : st.indexes.map (·.size) =
      st.indexes.map (fun ix => (st.tables ix.index).length) :=
    List.map_congr_left (fun ix hix => (wf_sizesAccurate st hwf ix hix).1)
  have hmap : st.indexes.map (·.index) = List.range' 0 st.indexes.length :=
    wfGo_map_index _ _ _ _ hwf.go
  have hcomp : st.indexes.map (fun ix => (st.tables ix.index).length) =
      (st.indexes.map (·.index)).map (fun k => (st.tables k).length) := by
    rw [List.map_map]
    rfl
  have hbase : Events.sumSizes st = Events.totalRows st st.indexes.length := by
    unfold Events.sumSizes Events.totalRows
    rw [hsz, hcomp, hmap, List.range_eq_range']
  have hstep : ∀ m, st.indexes.length ≤ m →
      Events.totalRows st m = Events.totalRows st st.indexes.length := by
    intro m
    induction m with
    | zero =>
      intro hm
      have : st.indexes.length = 0 := Nat.le_zero.mp hm
      rw [this]
    | succ m ih =>
      intro hm
      rcases Nat.lt_or_ge m st.indexes.length with hlt | hge
      · have : st.indexes.length = m + 1 := by omega
        rw [this]
      · have hm0 : m ∉ st.indexes.map (·.index) := by
          rw [hmap]
          intro hc
          have := List.mem_range'_1.mp hc
          omega
        have hempty : st.tables m = [] := hwf.unusedEmpty m hm0
        unfold Events.totalRows
        rw [List.range_succ, List.map_append, List.sum_append]
        have := ih hge
        unfold Events.totalRows at this
        simp [hempty, this]
  rw [hbase, ← hstep n hn]

theorem wf_emptyStore : WF emptyStore :=
  ⟨trivial, by intro ix h; simp [emptyStore, Events.init] at h, fun _ _ => rfl⟩

theorem wf_c3step1 : WF c3step1 :=
  wf_create_ok emptyStore (mkEv "a" 5) c3step1 wf_emptyStore rfl

/-- **C5.** From a well-formed store, after every successful `create` and
every `destroyOne`, the sum of `size` over the chain's `EventIndex` rows
equals the total number of event rows across all of the chain's sub-tables
(`0 .. n-1` for any `n` covering the allocated sub-tables), and the
recorded `blockNumber_max` is non-decreasing in the sub-table index. -/

theorem store_invariants_after_write (st : EventsState) (hwf : WF st) :
    (∀ e st', Events.create st e = .ok st' → ∀ n, st'.indexes.length ≤ n →
      Events.sumSizes st' = Events.totalRows st' n ∧ Events.maxesSorted st') ∧
    (∀ pred bn st' k, Events.destroyOne st pred bn = (st', k) → ∀ n, st'.indexes.length ≤ n →
      Events.sumSizes st' = Events.totalRows st' n ∧ Events.maxesSorted st') := by
  constructor
  · intro e st' h n hn
    have hwf' := wf_create_ok st e st' hwf h
    exact ⟨wf_sum_total st' hwf' n hn, wf_maxesSorted st' hwf'⟩
  · intro pred bn st' k h n hn
    have hwf' := wf_destroyOne st pred bn st' k hwf h
    exact ⟨wf_sum_total st' hwf' n hn, wf_maxesSorted st' hwf'⟩

/-- **C5 (witness).** The invariants hold concretely after creating one
event in a fresh store. -/

theorem store_invariants_after_write_witness :
    Events.sumSizes c3step1 = Events.totalRows c3step1 1 ∧ Events.maxesSorted c3step1 :=
  (store_invariants_after_write emptyStore wf_emptyStore).1 (mkEv "a" 5) c3step1 rfl 1
    (by decide)

/-- **C3 (amended).** From a well-formed store, after every successful
`create` and every `destroyOne`, each sub-table's recorded `size` equals
its row count, and the recorded `blockNumber_max` is an upper bound on
(not necessarily equal to — see the counterexample) the block numbers of
the rows currently stored there.  In particular `destroyOne` keeps the
size bookkeeping exact even when it deletes the sub-table's maximum row,
but it does not recompute `blockNumber_max`. -/

theorem size_accurate_after_write (st : EventsState) (hwf : WF st) :
    (∀ e st', Events.create st e = .ok st' → sizesAccurate st') ∧
    (∀ pred bn st' k, Events.destroyOne st pred bn = (st', k) → sizesAccurate st') := by
  constructor
  · intro e st' h
    exact wf_sizesAccurate st' (wf_create_ok st e st' hwf h)
  · intro pred bn st' k h
    exact wf_sizesAccurate st' (wf_destroyOne st pred bn st' k hwf h)

/-- **C3 (amended, witness).** Size accuracy after the counterexample's
deletion: the store that held blocks `{5, 3}` and destroyed the block-5 row
still has accurate sizes and valid upper bounds. -/

theorem size_accurate_after_write_witness : sizesAccurate c3result.1 :=
  (size_accurate_after_write c3step2
      (wf_create_ok c3step1 (mkEv "b" 3) c3step2 wf_c3step1 rfl)).2
    (fun e => e.id = "a") 5 c3result.1 c3result.2 rfl

/-- **C4.** Routing of `create` from a well-formed store:
(i) if some sub-table's `blockNumber_max` is `≥ e.blockNumber`, the event is
inserted into the smallest-position such sub-table (every earlier one has
`blockNumber_max < e.blockNumber`);
(ii) otherwise, if the latest sub-table has room (`size < N_max`), the event
is inserted there;
(iii) otherwise a new sub-table whose index equals the current sub-table
count is allocated with `size 1` and `blockNumber_max = e.blockNumber` — so
creating the `(N_max+1)`-th event of the tail sub-table `k` allocates
sub-table `k+1`. -/

theorem create_routing (st : EventsState) (e : EventStructure) (hwf : WF st) :
    (∀ i ix, st.indexes[i]? = some ix → e.blockNumber ≤ ix.blockNumber →
      (∀ j, j < i → ∀ jx, st.indexes[j]? = some jx → jx.blockNumber < e.blockNumber) →
      Events.create st e =
        .ok { st with
          indexes :=
            st.indexes.set i
              { ix with blockNumber := max ix.blockNumber e.blockNumber, size := ix.size + 1 }
          tables := Events.updTables st.tables ix.index (· ++ [e]) }) ∧
    ((∀ jx ∈ st.indexes, jx.blockNumber < e.blockNumber) →
      (∀ last, st.indexes.getLast? = some last → last.size < st.maxSizeForSingleTable →
        Events.create st e =
          .ok { st with
            indexes :=
              st.indexes.set (st.indexes.length - 1)
                { last with
                  blockNumber := max last.blockNumber e.blockNumber
                  size := last.size + 1 }
            tables := Events.updTables st.tables last.index (· ++ [e]) }) ∧
      ((∀ last, st.indexes.getLast? = some last → st.maxSizeForSingleTable ≤ last.size) →
        st.indexes.length ∈ st.models →
        Events.create st e =
          .ok { st with
            indexes := st.indexes ++ [⟨st.indexes.length, e.blockNumber, 1⟩]
            tables := Events.updTables st.tables st.indexes.length (· ++ [e]) })) := by
  refine ⟨?_, ?_⟩
  · intro i ix hix hle hbefore
    have hloc : Events.locate st e.blockNumber = some i :=
      locateGo_first_hit e.blockNumber (-1) st.indexes (by omega) i ix hix hle hbefore
    have hmem : ix.index ∈ st.models := hwf.modelsOK ix (List.getElem?_mem hix)
    rw [create_locate_some st e i hloc, insert_spec st e i ix hix hmem]
  · intro hlt
    have hloc : Events.locate st e.blockNumber = none :=
      locateGo_eq_none _ _ _ hlt
    constructor
    · intro last hlast hsz
      have hix : st.indexes[st.indexes.length - 1]? = some last := by
        rw [← List.getLast?_eq_getElem?]
        exact hlast
      have hmem : last.index ∈ st.models := hwf.modelsOK last (List.getElem?_mem hix)
      unfold Events.create
      rw [hloc, hlast]
      simp only [if_pos hsz]
      rw [insert_spec st e _ last hix hmem]
    · intro hfull hmem
      unfold Events.create
      rw [hloc]
      cases hlast : st.indexes.getLast? with
      | none => exact createNew_mem st e hmem
      | some last =>
        have hsz : ¬ last.size < st.maxSizeForSingleTable := by
          have := hfull last hlast
          omega
        simp only [if_neg hsz]
        exact createNew_mem st e hmem

/-- **C4 (witness).** On the one-sub-table store holding block 5, an event
at block 4 is routed into sub-table 0 (the smallest with
`blockNumber_max ≥ 4`). -/

theorem create_routing_witness :
    Events.create c3step1 (mkEv "c" 4) =
      .ok { c3step1 with
        indexes :=
          c3step1.indexes.set 0
            { index := 0, blockNumber := max 5 4, size := 2 }
        tables := Events.updTables c3step1.tables 0 (· ++ [mkEv "c" 4]) } :=
  (create_routing c3step1 (mkEv "c" 4) wf_c3step1).1 0 ⟨0, 5, 1⟩ (by decide) (by decide)
    (fun j hj _ _ => absurd hj (Nat.not_lt_zero j))

theorem pairwise_lt_le_getLast :
    ∀ (l : List EventStructure), l.Pairwise (fun a b => a.pos < b.pos) →
      ∀ last, l.getLast? = some last → ∀ e ∈ l, e.pos ≤ last.pos := by
  intro l
  induction l with
  | nil => intro _ last h; simp at h
  | cons x rest ih =>
    intro hp last hlast e hmem
    cases rest with
    | nil =>
      simp only [List.getLast?_singleton, Option.some.injEq] at hlast
      rcases List.mem_singleton.mp hmem with rfl
      rw [hlast]
    | cons y rest' =>
      rw [List.getLast?_cons_cons] at hlast
      have hlmem : last ∈ y :: rest' := by
        have := List.getLast?_eq_getElem? (y :: rest')
        rw [this] at hlast
        exact List.getElem?_mem hlast
      rcases List.mem_cons.mp hmem with rfl | hmem
      · exact le_of_lt ((List.pairwise_cons.mp hp).1 last hlmem)
      · exact ih (List.pairwise_cons.mp hp).2 last hlast e hmem

theorem filter_gt_getLast_take (l : List EventStructure)
    (hp : l.Pairwise (fun a b => a.pos < b.pos)) (limit : Nat) (hle : limit ≤ l.length)
    (last : EventStructure) (hlast : (l.take limit).getLast? = some last) :
    l.filter (fun e => decide (last.pos < e.pos)) = l.drop limit := by
  have hsplit : l = l.take limit ++ l.drop limit := (List.take_append_drop _ _).symm
  have hptake : (l.take limit).Pairwise (fun a b => a.pos < b.pos) :=
    hp.sublist (List.take_sublist _ _)
  have hcross : ∀ a ∈ l.take limit, ∀ b ∈ l.drop limit, a.pos < b.pos := by
    have := List.pairwise_append.mp (hsplit ▸ hp)
    exact this.2.2
  have hlastmem : last ∈ l.take limit := by
    rw [List.getLast?_eq_getElem?] at hlast
    exact List.getElem?_mem hlast
  conv_lhs => rw [hsplit]
  rw [List.filter_append]
  have h1 : (l.take limit).filter (fun e => decide (last.pos < e.pos)) = [] := by
    refine List.filter_eq_nil_iff.mpr ?_
    intro e hmem
    have hle' := pairwise_lt_le_getLast _ hptake last hlast e hmem
    simp only [decide_eq_true_eq]
    exact not_lt_of_le hle'
  have h2 : (l.drop limit).filter (fun e => decide (last.pos < e.pos)) = l.drop limit := by
    refine List.filter_eq_self.mpr ?_
    intro e hmem
    simp only [decide_eq_true_eq]
    exact hcross last hlastmem e hmem
  rw [h1, h2, List.nil_append]

theorem chunkPagesGo_sorted_id (limit : Nat) (hlim : 0 < limit) :
    ∀ (fuel : Nat) (l : List EventStructure), l.length ≤ fuel →
      l.Pairwise (fun a b => a.pos < b.pos) → chunkPagesGo limit fuel l = l := by
  intro fuel
  induction fuel with
  | zero =>
    intro l hlen _
    rw [List.length_eq_zero.mp (Nat.le_zero.mp hlen)]
    rfl
  | succ fuel ih =>
    intro l hlen hp
    simp only [chunkPagesGo]
    by_cases hc : limit ≤ l.length
    · have hpl : (l.take limit).length = limit := by
        rw [List.length_take]
        omega
      rw [if_pos ⟨hlim, hpl⟩]
      have hne : l.take limit ≠ [] := by
        intro hcontra
        rw [hcontra] at hpl
        simp at hpl
        omega
      obtain ⟨last, hlast⟩ := Option.ne_none_iff_exists'.mp
        (mt List.getLast?_eq_none_iff.mp hne)
      rw [hlast]
      simp only []
      rw [filter_gt_getLast_take l hp limit hc last hlast]
      rw [ih (l.drop limit) (by simp [List.length_drop]; omega)
        (hp.sublist (List.drop_sublist _ _))]
      exact List.take_append_drop _ _
    · have hpl : (l.take limit).length = l.length := by
        rw [List.length_take]
        omega
      have htake : l.take limit = l := List.take_of_length_le (by omega)
      rw [if_neg (by rw [hpl]; rintro ⟨-, h⟩; omega), htake]

theorem chunkPages_sorted_id (limit : Nat) (hlim : 0 < limit) (l : List EventStructure)
    (hp : l.Pairwise (fun a b => a.pos < b.pos)) : chunkPages limit l = l :=
  chunkPagesGo_sorted_id limit hlim (l.length + 1) l (by omega) hp

theorem pairwise_le_ne_lt (l : List EventStructure)
    (hs : l.Pairwise (fun a b => a.pos ≤ b.pos))
    (hn : l.Pairwise (fun a b => a.pos ≠ b.pos)) :
    l.Pairwise (fun a b => a.pos < b.pos) :=
  (hs.and hn).imp (fun h => lt_of_le_of_ne h.1 h.2)

theorem tableQuery_perm (rows : List EventStructure) (cond : EventStructure → Bool) :
    List.Perm (tableQuery rows cond) (rows.filter cond) :=
  List.perm_insertionSort _ _

theorem tableQuery_sorted_lt (rows : List EventStructure) (cond : EventStructure → Bool)
    (hn : rows.Pairwise (fun a b => a.pos ≠ b.pos)) :
    (tableQuery rows cond).Pairwise (fun a b => a.pos < b.pos) := by
  refine pairwise_le_ne_lt _ ?_ ?_
  · exact List.sorted_insertionSort _ _
  · have hfil : (rows.filter cond).Pairwise (fun a b => a.pos ≠ b.pos) :=
      hn.sublist (List.filter_sublist _)
    exact ((tableQuery_perm rows cond).pairwise_iff (fun h => Ne.symm h)).mpr hfil

theorem wfGo_events_gt_prev (tables : Nat → List EventStructure) :
    ∀ (l : List EventIndex) (prev : Int) (pos : Nat), WFGo tables prev pos l →
      ∀ e ∈ Events.storedEventsGo tables l, prev < (e.blockNumber : Int) := by
  intro l
  induction l with
  | nil => intro _ _ _ e h; simp [Events.storedEventsGo] at h
  | cons x rest ih =>
    intro prev pos hwf e hmem
    simp only [Events.storedEventsGo] at hmem
    rcases List.mem_append.mp hmem with hmem | hmem
    · exact (hwf.2.2.2.1 e hmem).1
    · exact lt_of_le_of_lt hwf.2.2.1 (ih _ _ hwf.2.2.2.2 e hmem)

theorem storedEventsGo_append (tables : Nat → List EventStructure) :
    ∀ (l1 l2 : List EventIndex),
      Events.storedEventsGo tables (l1 ++ l2) =
        Events.storedEventsGo tables l1 ++ Events.storedEventsGo tables l2 := by
  intro l1 l2
  induction l1 with
  | nil => rfl
  | cons x rest ih => simp [Events.storedEventsGo, ih]

theorem storedEventsGo_mono (t t' : Nat → List EventStructure)
    (h : ∀ n, ∀ a ∈ t n, a ∈ t' n) :
    ∀ (l : List EventIndex), ∀ a ∈ Events.storedEventsGo t l, a ∈ Events.storedEventsGo t' l := by
  intro l
  induction l with
  | nil => intro a ha; simp [Events.storedEventsGo] at ha
  | cons x rest ih =>
    intro a ha
    simp only [Events.storedEventsGo] at ha ⊢
    rcases List.mem_append.mp ha with ha | ha
    · exact List.mem_append.mpr (Or.inl (h _ a ha))
    · exact List.mem_append.mpr (Or.inr (ih a ha))

theorem storedEventsGo_congr_map (t : Nat → List EventStructure) :
    ∀ (l1 l2 : List EventIndex), l1.map (·.index) = l2.map (·.index) →
      Events.storedEventsGo t l1 = Events.storedEventsGo t l2 := by
  intro l1
  induction l1 with
  | nil =>
    intro l2 h
    cases l2 with
    | nil => rfl
    | cons y r2 => simp at h
  | cons x r1 ih =>
    intro l2 h
    cases l2 with
    | nil => simp at h
    | cons y r2 =>
      simp only [List.map_cons, List.cons.injEq] at h
      simp only [Events.storedEventsGo, h.1, ih r2 h.2]

/-- the central streaming lemma: over a well-formed walk whose sub-tables
have pairwise-distinct positions, `findAll`'s concatenation of paginated
per-table queries yields exactly the matching stored events, in strictly
increasing position order.  `hfrom`/`hto` are the facts the walk's bounds
give about the query condition. -/

theorem findAllGo_spec (cond : EventStructure → Bool) (fromBN toBN limit : Nat)
    (hlim : 0 < limit) (tables : Nat → List EventStructure)
    (hfrom : ∀ e, cond e = true → fromBN ≤ e.blockNumber) :
    ∀ (l : List EventIndex) (prev : Int) (pos : Nat),
      WFGo tables prev pos l →
      (∀ ix ∈ l, (tables ix.index).Pairwise (fun a b => a.pos ≠ b.pos)) →
      (∀ ix ∈ l, ∀ e ∈ tables ix.index, cond e = true → e.blockNumber ≤ toBN) →
      List.Perm (findAllGo tables cond fromBN toBN limit prev l)
          ((Events.storedEventsGo tables l).filter cond) ∧
        (findAllGo tables cond fromBN toBN limit prev l).Pairwise
          (fun a b => a.pos < b.pos) := by
  intro l
  induction l with
  | nil =>
    intro _ _ _ _ _
    exact ⟨by simp [findAllGo, Events.storedEventsGo], by simp [findAllGo]⟩
  | cons x rest ih =>
    intro prev pos hwf hnodup hto
    obtain ⟨ihp, ihs⟩ := ih (x.blockNumber : Int) (pos + 1) hwf.2.2.2.2
      (fun ix h => hnodup ix (by simp [h])) (fun ix h => hto ix (by simp [h]))
    simp only [findAllGo, Events.storedEventsGo, List.filter_append]
    by_cases hsel : (fromBN ≤ x.blockNumber ∧ x.blockNumber ≤ toBN) ∨
        (prev < (toBN : Int) ∧ toBN ≤ x.blockNumber)
    · rw [if_pos hsel]
      have hq_lt : (tableQuery (tables x.index) cond).Pairwise (fun a b => a.pos < b.pos) :=
        tableQuery_sorted_lt _ _ (hnodup x (by simp))
      have hchunk : chunkPages limit (tableQuery (tables x.index) cond) =
          tableQuery (tables x.index) cond :=
        chunkPages_sorted_id limit hlim _ hq_lt
      rw [hchunk]
      refine ⟨(tableQuery_perm _ _).append ihp, ?_⟩
      rw [List.pairwise_append]
      refine ⟨hq_lt, ihs, ?_⟩
      intro a ha b hb
      have hamem : a ∈ (tables x.index).filter cond :=
        (tableQuery_perm _ _).mem_iff.mp ha
      have habn : a.blockNumber ≤ x.blockNumber :=
        (hwf.2.2.2.1 a (List.mem_of_mem_filter hamem)).2
      have hbmem : b ∈ (Events.storedEventsGo tables rest).filter cond := ihp.mem_iff.mp hb
      have hbbn : (x.blockNumber : Int) < (b.blockNumber : Int) :=
        wfGo_events_gt_prev tables rest _ _ hwf.2.2.2.2 b (List.mem_of_mem_filter hbmem)
      refine Pos.lt_of_bn_lt ?_
      show a.blockNumber < b.blockNumber
      omega
    · rw [if_neg hsel]
      have hempty : (tables x.index).filter cond = [] := by
        refine List.filter_eq_nil_iff.mpr ?_
        intro e hmem hcond
        have hbounds := hwf.2.2.2.1 e hmem
        rcases Nat.lt_or_ge x.blockNumber fromBN with hlt | hge
        · have := hfrom e hcond
          omega
        · have h1 : toBN < x.blockNumber := by
            rcases Nat.lt_or_ge toBN x.blockNumber with h | h
            · exact h
            · exact absurd (Or.inl ⟨hge, h⟩) hsel
          have h2 : (toBN : Int) ≤ prev := by
            by_contra hcontra
            exact hsel (Or.inr ⟨by omega, by omega⟩)
          have := hto x (by simp) e hmem hcond
          have := hbounds.1
          omega
      rw [hempty, List.nil_append, List.nil_append]
      exact ⟨ihp, ihs⟩

theorem fromCond_imp_le (qf : QueryFrom) (e : EventStructure) (h : fromCond qf e = true) :
    qf.blockNumber ≤ e.blockNumber := by
  cases qf with
  | num n =>
    simp only [fromCond, decide_eq_true_eq] at h
    simpa [QueryFrom.blockNumber] using Nat.le_of_lt h
  | pos p =>
    simp only [fromCond, Bool.or_eq_true, Bool.and_eq_true, decide_eq_true_eq] at h
    simp only [QueryFrom.blockNumber]
    rcases h with (h | ⟨h, -⟩) | ⟨⟨h, -⟩, -⟩ <;> omega

theorem fromCond_pos_iff (p : Pos) (e : EventStructure) :
    fromCond (.pos p) e = true ↔ p < e.pos := by
  simp only [fromCond, Bool.or_eq_true, Bool.and_eq_true, decide_eq_true_eq, Pos.lt_def]
  show _ ↔ p.bn < e.blockNumber ∨ p.bn = e.blockNumber ∧
    (p.ti < e.transactionIndex ∨ p.ti = e.transactionIndex ∧ p.li < e.logIndex)
  constructor
  · rintro ((h | ⟨h1, h2⟩) | ⟨⟨h1, h2⟩, h3⟩)
    · exact Or.inl h
    · exact Or.inr ⟨h1.symm, Or.inl h2⟩
    · exact Or.inr ⟨h1.symm, Or.inr ⟨h2.symm, h3⟩⟩
  · rintro (h | ⟨h1, h2 | ⟨h2, h3⟩⟩)
    · exact Or.inl (Or.inl h)
    · exact Or.inl (Or.inr ⟨h1.symm, h2⟩)
    · exact Or.inr ⟨⟨h1.symm, h2.symm⟩, h3⟩

theorem toCond_pos_iff (p : Pos) (e : EventStructure) :
    toCond (some (.pos p)) e = true ↔ e.pos ≤ p := by
  simp only [toCond, Bool.or_eq_true, Bool.and_eq_true, decide_eq_true_eq]
  rw [Pos.le_def, Pos.lt_def]
  show _ ↔ (e.blockNumber < p.bn ∨ e.blockNumber = p.bn ∧
      (e.transactionIndex < p.ti ∨ e.transactionIndex = p.ti ∧ e.logIndex < p.li)) ∨
    e.pos = p
  constructor
  · rintro ((h | ⟨h1, h2⟩) | ⟨⟨h1, h2⟩, h3⟩)
    · exact Or.inl (Or.inl h)
    · exact Or.inl (Or.inr ⟨h1, Or.inl h2⟩)
    · rcases Nat.lt_or_ge e.logIndex p.li with h4 | h4
      · exact Or.inl (Or.inr ⟨h1, Or.inr ⟨h2, h4⟩⟩)
      · have : e.logIndex = p.li := by omega
        exact Or.inr (by simp [EventStructure.pos, h1, h2, this])
  · rintro ((h | ⟨h1, h2 | ⟨h2, h3⟩⟩) | h)
    · exact Or.inl (Or.inl h)
    · exact Or.inl (Or.inr ⟨h1, h2⟩)
    · exact Or.inr ⟨⟨h1, h2⟩, Nat.le_of_lt h3⟩
    · have h1 : e.blockNumber = p.bn := congrArg Pos.bn h
      have h2 : e.transactionIndex = p.ti := congrArg Pos.ti h
      have h3 : e.logIndex = p.li := congrArg Pos.li h
      exact Or.inr ⟨⟨h1, h2⟩, Nat.le_of_eq h3⟩

theorem toCond_num_iff (n : Nat) (e : EventStructure) :
    toCond (some (.num n)) e = true ↔ e.blockNumber ≤ n := by
  simp [toCond]

theorem wfGo_le_getLast (tables : Nat → List EventStructure) :
    ∀ (l : List EventIndex) (prev : Int) (pos : Nat), WFGo tables prev pos l →
      ∀ last, l.getLast? = some last → ∀ ix ∈ l, ix.blockNumber ≤ last.blockNumber := by
  intro l
  induction l with
  | nil => intro _ _ _ last h; simp at h
  | cons x rest ih =>
    intro prev pos hwf last hlast ix hmem
    cases rest with
    | nil =>
      simp only [List.getLast?_singleton, Option.some.injEq] at hlast
      rcases List.mem_singleton.mp hmem with rfl
      rw [hlast]
    | cons y rest' =>
      rw [List.getLast?_cons_cons] at hlast
      have hlmem : last ∈ y :: rest' := by
        have heq := List.getLast?_eq_getElem? (y :: rest')
        rw [heq] at hlast
        exact List.getElem?_mem hlast
      rcases List.mem_cons.mp hmem with rfl | hmem
      · have hall := (wfGo_maxes tables (y :: rest') _ _ hwf.2.2.2.2).1
        have := hall last hlmem
        exact_mod_cast this
      · exact ih _ _ hwf.2.2.2.2 last hlast ix hmem

/-- with the per-table unique `(blockNumber, transactionIndex, logIndex)`
index, all stored events have pairwise-distinct positions: cross-table
pairs differ in block number thanks to the partition invariant. -/

theorem wf_storedEvents_pairwise_ne (tables : Nat → List EventStructure) :
    ∀ (l : List EventIndex) (prev : Int) (pos : Nat), WFGo tables prev pos l →
      (∀ ix ∈ l, (tables ix.index).Pairwise (fun a b => a.pos ≠ b.pos)) →
      (Events.storedEventsGo tables l).Pairwise (fun a b => a.pos ≠ b.pos) := by
  intro l
  induction l with
  | nil => intro _ _ _ _; simp [Events.storedEventsGo]
  | cons x rest ih =>
    intro prev pos hwf hnodup
    simp only [Events.storedEventsGo]
    rw [List.pairwise_append]
    refine ⟨hnodup x (by simp), ih _ _ hwf.2.2.2.2 (fun ix h => hnodup ix (by simp [h])), ?_⟩
    intro a ha b hb
    have h1 : a.blockNumber ≤ x.blockNumber := (hwf.2.2.2.1 a ha).2
    have h2 : (x.blockNumber : Int) < (b.blockNumber : Int) :=
      wfGo_events_gt_prev tables rest _ _ hwf.2.2.2.2 b hb
    intro hcontra
    have : a.blockNumber = b.blockNumber := congrArg Pos.bn hcontra
    omega

/-- the stream yielded by `findAllOrderByBTLASC`: exactly the stored events
matching the open-left/closed-right bounds, in strictly increasing
position order. -/

theorem findAllOrderByBTLASC_spec (st : EventsState) (hwf : WF st)
    (hnodup : ∀ ix ∈ st.indexes, (st.tables ix.index).Pairwise (fun a b => a.pos ≠ b.pos))
    (qfrom : QueryFrom) (qto : Option QueryTo) (limit : Nat) (hlim : 0 < limit)
    (hvalid : qfrom.blockNumber ≤ toBlockNumberOf st qto) :
    ∃ res, findAllOrderByBTLASC st qfrom qto limit = some res ∧
      List.Perm res
        ((Events.storedEvents st).filter (fun e => fromCond qfrom e && toCond qto e)) ∧
      res.Pairwise (fun a b => a.pos < b.pos) := by
  have hto : ∀ ix ∈ st.indexes, ∀ e ∈ st.tables ix.index,
      (fromCond qfrom e && toCond qto e) = true → e.blockNumber ≤ toBlockNumberOf st qto := by
    intro ix hix e he hcond
    rw [Bool.and_eq_true] at hcond
    match qto with
    | some (.num n) => exact (toCond_num_iff n e).mp hcond.2
    | some (.pos p) => exact Pos.bn_le_of_le ((toCond_pos_iff p e).mp hcond.2)
    | none =>
      show e.blockNumber ≤ Events.latestBlockNumber st
      have h1 : e.blockNumber ≤ ix.blockNumber := (wf_sizesAccurate st hwf ix hix).2 e he
      cases hlast : st.indexes.getLast? with
      | none =>
        rw [List.getLast?_eq_none_iff.mp hlast] at hix
        simp at hix
      | some last =>
        have h2 := wfGo_le_getLast st.tables st.indexes _ _ hwf.go last hlast ix hix
        have h3 : Events.latestBlockNumber st = last.blockNumber := by
          unfold Events.latestBlockNumber
          rw [hlast]
        omega
  have hfrom : ∀ e, (fromCond qfrom e && toCond qto e) = true →
      qfrom.blockNumber ≤ e.blockNumber := by
    intro e hcond
    rw [Bool.and_eq_true] at hcond
    exact fromCond_imp_le qfrom e hcond.1
  obtain ⟨hperm, hsorted⟩ := findAllGo_spec (fun e => fromCond qfrom e && toCond qto e)
    qfrom.blockNumber (toBlockNumberOf st qto) limit hlim st.tables hfrom
    st.indexes (-1) 0 hwf.go hnodup hto
  refine ⟨_, ?_, hperm, hsorted⟩
  unfold findAllOrderByBTLASC
  rw [if_neg (by omega)]

theorem processLogsReorgEmits_eq_nil (hash : List String → String) (chainId : Nat)
    (l : List EventStructure) : processLogsReorgEmits hash chainId l = [] := by
  cases l with
  | nil => rfl
  | cons e rest => rfl

/-- **C6.** `Storage.reorg` re-emits nothing at all: on the store holding
one event at block 5, `findAllOrderByBTLASC(4)` does stream that event
(it is the only one with `blockNumber ≥ 5`), but `processLogs` throws a
`TypeError` computing `calcEventId` on the rebuilt log's `undefined`
`transactionHash`, the batch rolls back, `reorg` ignores the failure, and
no `newParsedEvent` is emitted — against the claimed one-emission-per-
stored-log behaviour. -/

theorem reorg_reprocessing_emits_nothing :
    findAllOrderByBTLASC c3step1 (.num 4) none 1000 = some [mkEv "a" 5] ∧
      reorgEmits constHash 1 c3step1 5 = some [] ∧
      [mkEv "a" 5] ≠ ([] : List EventStructure) := by
  refine ⟨by decide, ?_, by decide⟩
  unfold reorgEmits
  rw [show findAllOrderByBTLASC c3step1 (.num (5 - 1)) none 1000 =
    some [mkEv "a" 5] by decide]
  simp only []
  rw [processLogsReorgEmits_eq_nil]

theorem Pos.zero_le (p : Pos) : zeroPos ≤ p := by
  rcases p with ⟨pb, pt, pl⟩
  rw [Pos.le_def, Pos.lt_def]
  show (0 < pb ∨ (0 = pb ∧ (0 < pt ∨ (0 = pt ∧ 0 < pl)))) ∨ zeroPos = ⟨pb, pt, pl⟩
  rcases Nat.eq_zero_or_pos pb with rfl | h1
  · rcases Nat.eq_zero_or_pos pt with rfl | h2
    · rcases Nat.eq_zero_or_pos pl with rfl | h3
      · exact Or.inr rfl
      · exact Or.inl (Or.inr ⟨rfl, Or.inr ⟨rfl, h3⟩⟩)
    · exact Or.inl (Or.inr ⟨rfl, Or.inl h2⟩)
  · exact Or.inl (Or.inl h1)

theorem sortEvents_perm (l : List EventStructure) : List.Perm (sortEvents l) l :=
  List.perm_insertionSort _ _

theorem sortEvents_sorted_lt (l : List EventStructure)
    (hn : l.Pairwise (fun a b => a.pos ≠ b.pos)) :
    (sortEvents l).Pairwise (fun a b => a.pos < b.pos) := by
  refine pairwise_le_ne_lt _ (List.sorted_insertionSort _ _) ?_
  exact ((sortEvents_perm l).pairwise_iff (fun h => Ne.symm h)).mpr hn

theorem toCond_mono (b : Pos) (q : QueryTo) (hb : posLeTo b q) (e : EventStructure)
    (h : toCond (some (.pos b)) e = true) : toCond (some q) e = true := by
  have hle : e.pos ≤ b := (toCond_pos_iff b e).mp h
  cases q with
  | num n =>
    refine (toCond_num_iff n e).mpr ?_
    have h1 : e.pos.bn ≤ b.bn := Pos.bn_le_of_le hle
    have h2 : b.bn ≤ n := hb
    show e.blockNumber ≤ n
    calc e.blockNumber = e.pos.bn := rfl
      _ ≤ b.bn := h1
      _ ≤ n := h2
  | pos p =>
    exact (toCond_pos_iff p e).mpr (le_trans hle hb)

theorem splitCond_le (b : Pos) (q : QueryTo) (hb : posLeTo b q) (e : EventStructure) :
    (toCond (some (.pos b)) e && (fromCond (.pos zeroPos) e && toCond (some q) e)) =
      (fromCond (.pos zeroPos) e && toCond (some (.pos b)) e) := by
  cases h1 : toCond (some (.pos b)) e with
  | false => simp [h1]
  | true =>
    cases h2 : fromCond (.pos zeroPos) e with
    | false => simp [h1, h2]
    | true => simp [h1, h2, toCond_mono b q hb e h1]

theorem splitCond_gt (b : Pos) (e : EventStructure) :
    ((!toCond (some (.pos b)) e) && (fromCond (.pos zeroPos) e && toCond (some q) e)) =
      (fromCond (.pos b) e && toCond (some q) e) := by
  cases h1 : toCond (some (.pos b)) e with
  | true =>
    have h3 : ¬ (b < e.pos) := not_lt_of_le ((toCond_pos_iff b e).mp h1)
    have h4 : fromCond (.pos b) e = false :=
      Bool.eq_false_iff.mpr (fun hc => h3 ((fromCond_pos_iff b e).mp hc))
    simp [h1, h4]
  | false =>
    have h3 : b < e.pos := by
      rcases lt_or_le b e.pos with h | h
      · exact h
      · exact absurd ((toCond_pos_iff b e).mpr h) (by simp [h1])
    have h4 : fromCond (.pos b) e = true := (fromCond_pos_iff b e).mpr h3
    have h5 : fromCond (.pos zeroPos) e = true :=
      (fromCond_pos_iff zeroPos e).mpr (lt_of_le_of_lt (Pos.zero_le b) h3)
    simp [h1, h4, h5]

theorem eventsUpTo_decomp (st : EventsState) (hwf : WF st)
    (hnodup : ∀ ix ∈ st.indexes, (st.tables ix.index).Pairwise (fun a b => a.pos ≠ b.pos))
    (q : QueryTo) (b : Pos) (hb : posLeTo b q) :
    eventsUpTo st q =
      eventsUpTo st (.pos b) ++
        sortEvents ((Events.storedEvents st).filter
          (fun e => fromCond (.pos b) e && toCond (some q) e)) := by
  have hLn : (Events.storedEvents st).Pairwise (fun a b => a.pos ≠ b.pos) :=
    wf_storedEvents_pairwise_ne st.tables st.indexes (-1) 0 hwf.go hnodup
  have hs1 : (eventsUpTo st (.pos b)).Pairwise (fun a b => a.pos < b.pos) :=
    sortEvents_sorted_lt _ (hLn.sublist (List.filter_sublist _))
  have hs2 : (sortEvents ((Events.storedEvents st).filter
      (fun e => fromCond (.pos b) e && toCond (some q) e))).Pairwise
        (fun a b => a.pos < b.pos) :=
    sortEvents_sorted_lt _ (hLn.sublist (List.filter_sublist _))
  have hsL : (eventsUpTo st q).Pairwise (fun a b => a.pos < b.pos) :=
    sortEvents_sorted_lt _ (hLn.sublist (List.filter_sublist _))
  have hsplit : List.Perm
      ((Events.storedEvents st).filter
          (fun e => fromCond (.pos zeroPos) e && toCond (some (.pos b)) e) ++
        (Events.storedEvents st).filter
          (fun e => fromCond (.pos b) e && toCond (some q) e))
      ((Events.storedEvents st).filter
        (fun e => fromCond (.pos zeroPos) e && toCond (some q) e)) := by
    have h := List.filter_append_perm (fun e => toCond (some (.pos b)) e)
      ((Events.storedEvents st).filter
        (fun e => fromCond (.pos zeroPos) e && toCond (some q) e))
    rw [List.filter_filter, List.filter_filter] at h
    have e1 : (fun e => toCond (some (.pos b)) e &&
        (fromCond (.pos zeroPos) e && toCond (some q) e)) =
        (fun e => fromCond (.pos zeroPos) e && toCond (some (.pos b)) e) :=
      funext (splitCond_le b q hb)
    have e2 : (fun e => (!toCond (some (.pos b)) e) &&
        (fromCond (.pos zeroPos) e && toCond (some q) e)) =
        (fun e => fromCond (.pos b) e && toCond (some q) e) :=
      funext (splitCond_gt b)
    rw [e1, e2] at h
    exact h
  have hperm : List.Perm (eventsUpTo st q)
      (eventsUpTo st (.pos b) ++
        sortEvents ((Events.storedEvents st).filter
          (fun e => fromCond (.pos b) e && toCond (some q) e))) :=
    (sortEvents_perm _).trans
      (hsplit.symm.trans ((sortEvents_perm _).append (sortEvents_perm _)).symm)
  have hsR : (eventsUpTo st (.pos b) ++
      sortEvents ((Events.storedEvents st).filter
        (fun e => fromCond (.pos b) e && toCond (some q) e))).Pairwise
        (fun a b => a.pos < b.pos) := by
    rw [List.pairwise_append]
    refine ⟨hs1, hs2, ?_⟩
    intro a ha c hc
    have ha' : a ∈ (Events.storedEvents st).filter
        (fun e => fromCond (.pos zeroPos) e && toCond (some (.pos b)) e) :=
      (sortEvents_perm _).mem_iff.mp ha
    have hc' : c ∈ (Events.storedEvents st).filter
        (fun e => fromCond (.pos b) e && toCond (some q) e) :=
      (sortEvents_perm _).mem_iff.mp hc
    have h1 : a.pos ≤ b := by
      have := List.of_mem_filter ha'
      rw [Bool.and_eq_true] at this
      exact (toCond_pos_iff b a).mp this.2
    have h2 : b < c.pos := by
      have := List.of_mem_filter hc'
      rw [Bool.and_eq_true] at this
      exact (fromCond_pos_iff b c).mp this.1
    exact lt_of_le_of_lt h1 h2
  exact List.eq_of_perm_of_sorted hperm hsL hsR

theorem replay_from_base {S : Type} (apply : S → EventStructure → S) (s0 : S)
    (st : EventsState) (hwf : WF st)
    (hnodup : ∀ ix ∈ st.indexes, (st.tables ix.index).Pairwise (fun a b => a.pos ≠ b.pos))
    (q : QueryTo) (b : Pos) (hb : posLeTo b q) :
    replay apply st ((eventsUpTo st (.pos b)).foldl apply s0) b (some q) =
      some ((eventsUpTo st q).foldl apply s0) := by
  have hvalid : (QueryFrom.pos b).blockNumber ≤ toBlockNumberOf st (some q) := by
    cases q with
    | num n => exact hb
    | pos p => exact Pos.bn_le_of_le hb
  obtain ⟨res, heq, hperm, hsorted⟩ := findAllOrderByBTLASC_spec st hwf hnodup
    (.pos b) (some q) 1000 (by omega) hvalid
  have hLn : (Events.storedEvents st).Pairwise (fun a b => a.pos ≠ b.pos) :=
    wf_storedEvents_pairwise_ne st.tables st.indexes (-1) 0 hwf.go hnodup
  have hres : res = sortEvents ((Events.storedEvents st).filter
      (fun e => fromCond (.pos b) e && toCond (some q) e)) :=
    List.eq_of_perm_of_sorted (hperm.trans (sortEvents_perm _).symm) hsorted
      (sortEvents_sorted_lt _ (hLn.sublist (List.filter_sublist _)))
  unfold replay
  rw [heq]
  simp only []
  rw [hres, ← List.foldl_append]
  rw [← eventsUpTo_decomp st hwf hnodup q b hb]

/-- **C7.** `getSnapshot(to = q)` is independent of the replay base:
assuming each base snapshot is the fold of `apply` over the stored events
up to its position (in position order, from the fresh state `s0`),
replaying from base `b₁ ≤ q` and from base `b₂ ≤ q` (the empty snapshot at
position `(0,0,0)` included) produce the same state — the fold of `apply`
over all stored events with `(0,0,0) < Position ≤ q` — because the replay
applies exactly the stored events in `(base, q]` in total position
order. -/

theorem getSnapshot_base_independent {S : Type} (apply : S → EventStructure → S) (s0 : S)
    (snaps : List (Pos × S)) (st : EventsState) (hwf : WF st)
    (hnodup : ∀ ix ∈ st.indexes, (st.tables ix.index).Pairwise (fun a b => a.pos ≠ b.pos))
    (q : QueryTo) (b1 b2 : Pos) (s1 s2 : S)
    (hb1 : posLeTo b1 q) (hb2 : posLeTo b2 q)
    (hs1 : s1 = (eventsUpTo st (.pos b1)).foldl apply s0)
    (hs2 : s2 = (eventsUpTo st (.pos b2)).foldl apply s0) :
    getSnapshot apply s0 snaps st q (some (s1, b1)) =
        getSnapshot apply s0 snaps st q (some (s2, b2)) ∧
      getSnapshot apply s0 snaps st q (some (s1, b1)) =
        some ((eventsUpTo st q).foldl apply s0) := by
  have h1 : getSnapshot apply s0 snaps st q (some (s1, b1)) =
      some ((eventsUpTo st q).foldl apply s0) := by
    show replay apply st s1 b1 (some q) = _
    rw [hs1]
    exact replay_from_base apply s0 st hwf hnodup q b1 hb1
  have h2 : getSnapshot apply s0 snaps st q (some (s2, b2)) =
      some ((eventsUpTo st q).foldl apply s0) := by
    show replay apply st s2 b2 (some q) = _
    rw [hs2]
    exact replay_from_base apply s0 st hwf hnodup q b2 hb2
  exact ⟨h1.trans h2.symm, h1⟩

theorem wf_c3step2 : WF c3step2 :=
  wf_create_ok c3step1 (mkEv "b" 3) c3step2 wf_c3step1 rfl

/-- **C7 (witness).** On the store holding events at blocks 5 and 3,
replaying to block 10 from the base `(3,0,0)` (whose consistent snapshot
is the one-event fold) and from the empty base at `(0,0,0)` agree, and
both equal the two-event fold. -/

theorem getSnapshot_base_independent_witness :
    getSnapshot (fun (s : List EventStructure) e => s ++ [e]) [] [] c3step2 (.num 10)
        (some ([mkEv "b" 3], ⟨3, 0, 0⟩)) =
      getSnapshot (fun (s : List EventStructure) e => s ++ [e]) [] [] c3step2 (.num 10)
        (some ([], zeroPos)) ∧
      getSnapshot (fun (s : List EventStructure) e => s ++ [e]) [] [] c3step2 (.num 10)
        (some ([mkEv "b" 3], ⟨3, 0, 0⟩)) =
      some ((eventsUpTo c3step2 (.num 10)).foldl (fun s e => s ++ [e]) []) :=
  getSnapshot_base_independent (fun s e => s ++ [e]) [] [] c3step2 wf_c3step2
    (by decide) (.num 10) ⟨3, 0, 0⟩ zeroPos [mkEv "b" 3] []
    (show (3 : Nat) ≤ 10 by decide) (show (0 : Nat) ≤ 10 by decide) (by decide) (by decide)

theorem mem_updTables_append (tables : Nat → List EventStructure) (k : Nat)
    (e : EventStructure) :
    ∀ n, ∀ a ∈ tables n, a ∈ Events.updTables tables k (· ++ [e]) n := by
  intro n a ha
  unfold Events.updTables
  by_cases h : n = k
  · rw [if_pos h]; exact List.mem_append_left _ ha
  · rw [if_neg h]; exact ha

theorem insert_preserves_mem (st : EventsState) (e : EventStructure) (i : Nat)
    (st' : EventsState) (h : Events.insert st e i = some st') :
    ∀ x ∈ Events.storedEvents st, x ∈ Events.storedEvents st' := by
  intro x hx
  unfold Events.insert at h
  cases hix : st.indexes[i]? with
  | none => rw [hix] at h; exact Option.noConfusion h
  | some ix =>
    rw [hix] at h
    simp only [] at h
    by_cases hm : ix.index ∈ st.models
    · rw [if_pos hm] at h
      cases Option.some.inj h
      have hmap : (st.indexes.set i
          { ix with blockNumber := max ix.blockNumber e.blockNumber, size := ix.size + 1 }).map
            (·.index) = st.indexes.map (·.index) :=
        map_set_eq _ st.indexes i _ (fun w hw => by
          cases Option.some.inj (hix.symm.trans hw); rfl)
      show x ∈ Events.storedEventsGo
        (Events.updTables st.tables ix.index (· ++ [e]))
        (st.indexes.set i
          { ix with blockNumber := max ix.blockNumber e.blockNumber, size := ix.size + 1 })
      rw [storedEventsGo_congr_map _ _ st.indexes hmap]
      exact storedEventsGo_mono st.tables _ (mem_updTables_append st.tables ix.index e)
        st.indexes x hx
    · rw [if_neg hm] at h; exact Option.noConfusion h

theorem createNew_notmem (st : EventsState) (e : EventStructure)
    (hm : st.indexes.length ∉ st.models) :
    Events.createNew st e =
      .unknownModel
        { st with indexes := st.indexes ++ [⟨st.indexes.length, e.blockNumber, 1⟩] } := by
  unfold Events.createNew
  rw [if_neg hm]

theorem createNew_preserves_mem (st : EventsState) (e : EventStructure)
    (st' : EventsState) (h : Events.createNew st e = .ok st') :
    ∀ x ∈ Events.storedEvents st, x ∈ Events.storedEvents st' := by
  intro x hx
  by_cases hm : st.indexes.length ∈ st.models
  · rw [createNew_mem st e hm] at h
    cases Events.CreateResult.ok.inj h
    show x ∈ Events.storedEventsGo
      (Events.updTables st.tables st.indexes.length (· ++ [e]))
      (st.indexes ++ [⟨st.indexes.length, e.blockNumber, 1⟩])
    rw [storedEventsGo_append]
    exact List.mem_append_left _
      (storedEventsGo_mono st.tables _ (mem_updTables_append st.tables st.indexes.length e)
        st.indexes x hx)
  · rw [createNew_notmem st e hm] at h
    exact Events.CreateResult.noConfusion h

/-- successful `create` only adds rows: every previously stored event is
still stored afterwards. -/

theorem create_preserves_mem (st : EventsState) (e : EventStructure)
    (st' : EventsState) (h : Events.create st e = .ok st') :
    ∀ x ∈ Events.storedEvents st, x ∈ Events.storedEvents st' := by
  unfold Events.create at h
  cases hloc : Events.locate st e.blockNumber with
  | some i =>
    rw [hloc] at h
    simp only [] at h
    cases hins : Events.insert st e i with
    | some s2 =>
      rw [hins] at h
      simp only [] at h
      cases Events.CreateResult.ok.inj h
      exact insert_preserves_mem st e i st' hins
    | none =>
      rw [hins] at h
      simp only [] at h
      exact Events.CreateResult.noConfusion h
  | none =>
    rw [hloc] at h
    simp only [] at h
    cases hlast : st.indexes.getLast? with
    | some latest =>
      rw [hlast] at h
      simp only [] at h
      by_cases hsz : latest.size < st.maxSizeForSingleTable
      · rw [if_pos hsz] at h
        cases hins : Events.insert st e (st.indexes.length - 1) with
        | some s2 =>
          rw [hins] at h
          simp only [] at h
          cases Events.CreateResult.ok.inj h
          exact insert_preserves_mem st e (st.indexes.length - 1) st' hins
        | none =>
          rw [hins] at h
          simp only [] at h
          exact Events.CreateResult.noConfusion h
      · rw [if_neg hsz] at h
        exact createNew_preserves_mem st e st' h
    | none =>
      rw [hlast] at h
      simp only [] at h
      exact createNew_preserves_mem st e st' h

theorem commit_foldl_none : ∀ (l : List EventStructure), l.foldl commitStep none = none := by
  intro l
  induction l with
  | nil => rfl
  | cons e rest ih => exact ih

theorem commit_foldl_preserves_mem :
    ∀ (l : List EventStructure) (st st' : EventsState),
      l.foldl commitStep (some st) = some st' →
      ∀ x ∈ Events.storedEvents st, x ∈ Events.storedEvents st' := by
  intro l
  induction l with
  | nil =>
    intro st st' h x hx
    cases Option.some.inj h
    exact hx
  | cons e rest ih =>
    intro st st' h x hx
    rw [List.foldl_cons] at h
    simp only [commitStep] at h
    cases hc : Events.create st e with
    | ok s2 =>
      rw [hc] at h
      simp only [] at h
      exact ih s2 st' h x (create_preserves_mem st e s2 hc x hx)
    | unknownModel s2 =>
      rw [hc] at h
      simp only [] at h
      rw [commit_foldl_none rest] at h
      exact Option.noConfusion h

/-- processing one fetched log preserves the running invariant. -/

theorem processFetched_inv (hash : List String → String) (chainId : Nat)
    (parse : FLog → Option ParsedL) (timestampOf : Nat → Option Nat)
    (fetch : Nat → Nat → List FLog) (cs : CheckState) (log : FLog)
    (hlog : ∃ a b, log ∈ fetch a b)
    (hinv : CheckInv hash chainId parse timestampOf fetch cs) :
    CheckInv hash chainId parse timestampOf fetch
      (processFetched hash chainId parse timestampOf cs log) := by
  obtain ⟨a, b, hab⟩ := hlog
  unfold processFetched
  cases hd : mapDelete (supplementId hash chainId log) cs.existed with
  | some m =>
    simp only []
    exact hinv
  | none =>
    simp only []
    cases hp : parse log with
    | none => exact hinv
    | some parsed =>
      simp only []
      cases ht : timestampOf log.blockNumber with
      | none => exact hinv
      | some ts =>
        simp only []
        obtain ⟨hiff, hmin, hsup⟩ := hinv
        refine ⟨⟨fun hno => Option.noConfusion hno, fun hno => absurd hno (by simp)⟩, ?_, ?_⟩
        · intro m hm
          cases hr : cs.reorgedBlockNumber with
          | none =>
            rw [hr] at hm
            simp only [] at hm
            cases Option.some.inj hm
            have hnil : cs.needSave = [] := hiff.mp hr
            rw [hnil]
            constructor
            · simp [mkSupplement]
            · intro e he
              simp only [List.nil_append, List.mem_singleton] at he
              subst he
              exact Nat.le_refl _
          | some r =>
            rw [hr] at hm
            simp only [] at hm
            cases Option.some.inj hm
            obtain ⟨hrmem, hrlb⟩ := hmin r hr
            constructor
            · rcases Nat.le_total r log.blockNumber with hle | hle
              · rw [Nat.min_eq_left hle, List.map_append]
                exact List.mem_append_left _ hrmem
              · rw [Nat.min_eq_right hle, List.map_append]
                apply List.mem_append_right
                simp [mkSupplement]
            · intro e he
              rcases List.mem_append.mp he with he | he
              · exact le_trans (Nat.min_le_left _ _) (hrlb e he)
              · simp only [List.mem_singleton] at he
                subst he
                exact Nat.min_le_right _ _
        · intro e he
          rcases List.mem_append.mp he with he | he
          · exact hsup e he
          · simp only [List.mem_singleton] at he
            subst he
            exact ⟨a, b, log, parsed, ts, hab, hp, ht, rfl⟩

theorem foldl_processFetched_inv (hash : List String → String) (chainId : Nat)
    (parse : FLog → Option ParsedL) (timestampOf : Nat → Option Nat)
    (fetch : Nat → Nat → List FLog) :
    ∀ (logs : List FLog) (cs : CheckState),
      (∀ l ∈ logs, ∃ a b, l ∈ fetch a b) →
      CheckInv hash chainId parse timestampOf fetch cs →
      CheckInv hash chainId parse timestampOf fetch
        (logs.foldl (processFetched hash chainId parse timestampOf) cs) := by
  intro logs
  induction logs with
  | nil => intro cs _ h; exact h
  | cons l rest ih =>
    intro cs hmem hinv
    rw [List.foldl_cons]
    exact ih _ (fun x hx => hmem x (List.mem_cons_of_mem l hx))
      (processFetched_inv hash chainId parse timestampOf fetch cs l
        (hmem l (List.mem_cons_self l rest)) hinv)

theorem checkEventsGo_inv (hash : List String → String) (chainId : Nat)
    (parse : FLog → Option ParsedL) (timestampOf : Nat → Option Nat)
    (st : EventsState) (fetch : Nat → Nat → List FLog) :
    ∀ (fuel start stop : Nat) (cs : CheckState),
      CheckInv hash chainId parse timestampOf fetch cs →
      CheckInv hash chainId parse timestampOf fetch
        (checkEventsGo hash chainId parse timestampOf st fetch fuel start stop cs) := by
  intro fuel
  induction fuel with
  | zero => intro start stop cs h; exact h
  | succ n ih =>
    intro start stop cs hinv
    unfold checkEventsGo
    by_cases hss : start ≤ stop
    · rw [if_pos hss]
      simp only []
      have hcs2 : CheckInv hash chainId parse timestampOf fetch
          ((sortFLogs (fetch start (min (start + 1000) stop))).foldl
            (processFetched hash chainId parse timestampOf)
            { cs with existed := (findAllGoPlain st.tables
                (fun e => decide (start ≤ e.blockNumber) &&
                  decide (e.blockNumber ≤ min (start + 1000) stop))
                start (min (start + 1000) stop) (-1) st.indexes).foldl mapSet cs.existed }) :=
        foldl_processFetched_inv hash chainId parse timestampOf fetch _ _
          (fun l hl => ⟨start, min (start + 1000) stop,
            (List.Perm.mem_iff (List.perm_insertionSort _ _)).mp hl⟩) hinv
      by_cases hmid : min (start + 1000) stop = stop
      · rw [if_pos hmid]
        exact hcs2
      · rw [if_neg hmid]
        exact ih (min (start + 1000) stop) stop _ hcs2
    · rw [if_neg hss]
      exact hinv

/-- **C9.** The reorg detector's reconciliation never deletes stored events:
`checkEvents(from, to)` returns `needDestroy = []` unconditionally (the
destroy pass is commented out, so a stored event absent from the re-fetched
logs stays in the leftover map and is never destroyed, contributing nothing
to the reorged block number); a successful `commit` of its output keeps
every previously stored event stored (it only `create`s the supplemented
rows); every `needSave` row is the supplement of a fetched log that parsed
and whose block timestamp was found; and `reorgedBlockNumber` is the
minimum `blockNumber` among the supplemented rows, absent exactly when
nothing was supplemented. -/

theorem reorg_check_never_deletes (hash : List String → String) (chainId : Nat)
    (parse : FLog → Option ParsedL) (timestampOf : Nat → Option Nat)
    (st : EventsState) (fetch : Nat → Nat → List FLog) (start stop : Nat) :
    (checkEvents hash chainId parse timestampOf st fetch start stop).2 = [] ∧
    CheckInv hash chainId parse timestampOf fetch
      (checkEvents hash chainId parse timestampOf st fetch start stop).1 ∧
    (∀ st', commitEvents st
        (checkEvents hash chainId parse timestampOf st fetch start stop).1.needSave
        (checkEvents hash chainId parse timestampOf st fetch start stop).2 = some st' →
      ∀ x ∈ Events.storedEvents st, x ∈ Events.storedEvents st') := by
  refine ⟨rfl, ?_, ?_⟩
  · exact checkEventsGo_inv hash chainId parse timestampOf st fetch (stop + 1) start stop
      ⟨[], [], none⟩
      ⟨⟨fun _ => rfl, fun _ => rfl⟩, fun m hm => Option.noConfusion hm,
        fun e he => absurd he (List.not_mem_nil e)⟩
  · intro st' h x hx
    exact commit_foldl_preserves_mem _ st st' h x hx

/-- **C9 (witness).** On the store holding events at blocks 5 and 3, a check
of the window `[0, 5]` whose fetcher returns nothing supplements nothing,
reports no reorged block number and an empty `needDestroy`, and committing
its output leaves the store unchanged with the block-5 event still stored. -/

theorem reorg_check_never_deletes_witness :
    (checkEvents constHash 81457 (fun _ => none) (fun _ => none) c3step2 (fun _ _ => []) 0
      5).2 = [] ∧
    (checkEvents constHash 81457 (fun _ => none) (fun _ => none) c3step2 (fun _ _ => []) 0
      5).1.needSave = [] ∧
    (checkEvents constHash 81457 (fun _ => none) (fun _ => none) c3step2 (fun _ _ => []) 0
      5).1.reorgedBlockNumber = none ∧
    commitEvents c3step2
      (checkEvents constHash 81457 (fun _ => none) (fun _ => none) c3step2 (fun _ _ => []) 0
        5).1.needSave
      (checkEvents constHash 81457 (fun _ => none) (fun _ => none) c3step2 (fun _ _ => []) 0
        5).2 = some c3step2 ∧
    mkEv "a" 5 ∈ Events.storedEvents c3step2 := by
  have h := reorg_check_never_deletes constHash 81457 (fun _ => none) (fun _ => none) c3step2
    (fun _ _ => []) 0 5
  refine ⟨h.1, rfl, rfl, rfl, ?_⟩
  exact h.2.2 c3step2 rfl (mkEv "a" 5) (by decide)
